import Mathlib

/-!
Verification of the pabgp BGP speaker against its specification.

This file shallowly embeds the Rust sources of the repository:
the BGP wire codec (`src/bgp/endec.rs`, `src/bgp/route.rs`, `src/bgp/path.rs`,
`src/bgp/capability.rs`, `pabgp/lib.rs`), the UPDATE builder
(`src/bgp/update_builder.rs`), the CIDR host-count expansion
(`pabgp/cidr.rs`), the delegation-store diff (`src/rirstat/mod.rs`) and the
capability-processing and OPEN-response logic of the session
(`delegation-feed/session.rs`).

Machine integers become `Nat` with explicit `% 256` / `% 2^32` where the
code truncates or wraps; Rust `Bytes` buffers become `List Nat` whose
elements are below 256; fallible parsing becomes `Except`.  Rust panics
(buffer under-runs, division by zero) are modelled by the dedicated
`BgpError.panic` constructor so that every parser is total.
-/

set_option maxHeartbeats 1000000

namespace Pabgp

/-- Errors of the BGP packet layer, mirroring `Error` in `pabgp/lib.rs`
(`Marker`, `MessageType`, `InternalLength`, `InternalType`, `NoMpBgp`,
`NoNextHop`); the extra `panic` constructor models Rust panics such as
`Bytes::split_to` beyond the buffer or division by zero. -/
inductive BgpError where
  | marker : BgpError
  | messageType (t : Nat) : BgpError
  | internalLength (what : String) (cmp : Ordering) : BgpError
  | internalType (what : String) (val : Nat) : BgpError
  | noMpBgp : BgpError
  | noNextHop : BgpError
  | panic (what : String) : BgpError
deriving DecidableEq

/-- Big-endian bytes of a `u16` as written by `put_u16`. -/
def w16 (n : Nat) : List Nat := [n / 256 % 256, n % 256]

/-- Big-endian bytes of a `u32` as written by `put_u32`. -/
def w32 (n : Nat) : List Nat :=
  [n / 16777216 % 256, n / 65536 % 256, n / 256 % 256, n % 256]

@[simp] theorem w16_length (n : Nat) : (w16 n).length = 2 := rfl

@[simp] theorem w32_length (n : Nat) : (w32 n).length = 4 := rfl

/-- `n_prefix_octets` from `src/bgp/route.rs`: number of prefix octets of a
prefix length (`(prefix_len >> 3)`, plus one if the low three bits are not
all zero). -/
def nPrefixOctets (plen : Nat) : Nat :=
  if plen % 8 = 0 then plen / 8 else plen / 8 + 1

/-- `route::Value` from `src/bgp/route.rs`: a prefix length together with
the prefix octets (field names `plen`/`pbytes` stand for the source's
prefix-length and prefix-bytes fields). -/
structure RouteVal where
  plen : Nat
  pbytes : List Nat
deriving DecidableEq

/-- `route::Routes`: a list of route values. -/
abbrev Routes := List RouteVal

/-- One route as written by `Routes::to_bytes`: the length byte then the
prefix octets. -/
def encodeRouteVal (r : RouteVal) : List Nat := r.plen % 256 :: r.pbytes

/-- `Routes::to_bytes`: concatenation of the encoded routes. -/
def encodeRoutes (rs : Routes) : List Nat := (rs.map encodeRouteVal).flatten

/-- `Routes::slice_encoded_len`: the wire size of a route list. -/
def sliceEncodedLen (rs : List RouteVal) : Nat :=
  (rs.map fun r => 1 + r.pbytes.length).sum

/-- `Routes::from_bytes`: repeatedly read a length byte and
`n_prefix_octets` octets until the buffer is exhausted. -/
def parseRoutes : List Nat → Except BgpError Routes
  | [] => .ok []
  | plen :: rest =>
    let k := nPrefixOctets plen
    if k ≤ rest.length then
      match parseRoutes (rest.drop k) with
      | .ok rs => .ok (⟨plen, rest.take k⟩ :: rs)
      | .error e => .error e
    else
      .error (.panic "route split_to")
termination_by l => l.length
decreasing_by simp [List.length_drop]; omega

/-- Representation invariant of a route value: the length fits a byte, the
prefix octets are bytes, and there are exactly `n_prefix_octets` of them. -/
def wfRouteVal (r : RouteVal) : Bool :=
  decide (r.plen < 256) && decide (r.pbytes.length = nPrefixOctets r.plen)
    && r.pbytes.all fun b => decide (b < 256)

/-- Representation invariant of a route list. -/
def wfRoutes (rs : Routes) : Bool := rs.all wfRouteVal

@[simp] theorem parseRoutes_nil : parseRoutes [] = .ok [] := by
  rw [parseRoutes]

@[simp] theorem encodeRoutes_nil : encodeRoutes [] = [] := rfl

@[simp] theorem encodeRoutes_cons (r : RouteVal) (rs : Routes) :
    encodeRoutes (r :: rs) = encodeRouteVal r ++ encodeRoutes rs := rfl

theorem encodeRoutes_length (rs : Routes) :
    (encodeRoutes rs).length = sliceEncodedLen rs := by
  induction rs with
  | nil => rfl
  | cons r rs ih =>
    simp [encodeRoutes_cons, encodeRouteVal, sliceEncodedLen, ih,
      List.length_append]
    simp [sliceEncodedLen] at ih
    omega

theorem parseRoutes_encode (rs : Routes) (h : wfRoutes rs = true) :
    parseRoutes (encodeRoutes rs) = .ok rs := by
  induction rs with
  | nil => simp
  | cons r rs ih =>
    simp only [wfRoutes, List.all_cons, Bool.and_eq_true] at h
    obtain ⟨hr, hrs⟩ := h
    simp only [wfRouteVal, Bool.and_eq_true, decide_eq_true_eq] at hr
    obtain ⟨⟨h1, h2⟩, _⟩ := hr
    have hmod : r.plen % 256 = r.plen := Nat.mod_eq_of_lt h1
    simp only [encodeRoutes_cons, encodeRouteVal, List.cons_append]
    rw [parseRoutes]
    simp only [hmod, ← h2, List.length_append, List.drop_left, List.take_left]
    rw [if_pos (by omega)]
    rw [ih (by simpa [wfRoutes] using hrs)]

theorem parseRoutes_complete (bs : List Nat) (rs : Routes)
    (hb : ∀ b ∈ bs, b < 256) (h : parseRoutes bs = .ok rs) :
    encodeRoutes rs = bs := by
  obtain ⟨n, hn⟩ : ∃ n, bs.length ≤ n := ⟨bs.length, le_refl _⟩
  induction n generalizing bs rs with
  | zero =>
    match bs, hn with
    | [], _ =>
      simp only [parseRoutes_nil] at h
      cases h
      rfl
  | succ n ih =>
    match bs, h with
    | [], h =>
      simp only [parseRoutes_nil] at h
      cases h
      rfl
    | plen :: rest, h =>
      rw [parseRoutes] at h
      by_cases hk : nPrefixOctets plen ≤ rest.length
      · rw [if_pos hk] at h
        cases hrec : parseRoutes (rest.drop (nPrefixOctets plen)) with
        | ok rs' =>
          rw [hrec] at h
          cases h
          have hlen : (rest.drop (nPrefixOctets plen)).length ≤ n := by
            simp only [List.length_cons] at hn
            simp only [List.length_drop]
            omega
          have henc := ih (rest.drop (nPrefixOctets plen)) rs'
            (fun b hbmem => hb b (List.mem_cons_of_mem _ (List.mem_of_mem_drop hbmem)))
            hrec hlen
          simp only [encodeRoutes_cons, encodeRouteVal]
          rw [henc]
          have hp : plen % 256 = plen := Nat.mod_eq_of_lt (hb plen (List.mem_cons_self _ _))
          rw [hp]
          exact congrArg (plen :: ·) (List.take_append_drop _ _)
        | error e =>
          rw [hrec] at h
          cases h
      · rw [if_neg hk] at h
        cases h

/-! ### Address-family identifiers (`src/bgp/capability.rs`) -/

/-- `Afi` from `src/bgp/capability.rs`. -/
inductive Afi where
  | ipv4 : Afi
  | ipv6 : Afi
deriving DecidableEq

/-- Wire value of an AFI (`Afi` is `repr(u16)` with `Ipv4 = 1`, `Ipv6 = 2`). -/
def Afi.toNat : Afi → Nat
  | .ipv4 => 1
  | .ipv6 => 2

/-- `Afi::try_from` on a `u16`, failing with `InternalType` like the call
sites in the source. -/
def parseAfiE (what : String) (n : Nat) : Except BgpError Afi :=
  if n = 1 then .ok .ipv4
  else if n = 2 then .ok .ipv6
  else .error (.internalType what n)

/-- `Safi` from `src/bgp/capability.rs`. -/
inductive Safi where
  | unicast : Safi
  | multicast : Safi
  | mplsLabel : Safi
  | vpn : Safi
  | vpnMulticast : Safi
deriving DecidableEq

/-- Wire value of a SAFI (`repr(u16)`). -/
def Safi.toNat : Safi → Nat
  | .unicast => 1
  | .multicast => 2
  | .mplsLabel => 4
  | .vpn => 128
  | .vpnMulticast => 129

/-- `Safi::try_from`, failing with `InternalType` like the call sites. -/
def parseSafiE (what : String) (n : Nat) : Except BgpError Safi :=
  if n = 1 then .ok .unicast
  else if n = 2 then .ok .multicast
  else if n = 4 then .ok .mplsLabel
  else if n = 128 then .ok .vpn
  else if n = 129 then .ok .vpnMulticast
  else .error (.internalType what n)

theorem parseAfiE_toNat (what : String) (a : Afi) :
    parseAfiE what a.toNat = .ok a := by
  cases a <;> rfl

theorem parseSafiE_toNat (what : String) (s : Safi) :
    parseSafiE what s.toNat = .ok s := by
  cases s <;> rfl

/-! ### Origin and AS path (`src/bgp/path.rs`) -/

/-- `Origin` (`repr(u8)`: `Igp = 0`, `Egp = 1`, `Incomplete = 2`). -/
inductive Origin where
  | igp : Origin
  | egp : Origin
  | incomplete : Origin
deriving DecidableEq

def Origin.toNat : Origin → Nat
  | .igp => 0
  | .egp => 1
  | .incomplete => 2

/-- `Origin::to_bytes`: a single byte. -/
def encodeOrigin (o : Origin) : List Nat := [o.toNat]

/-- `Origin::from_bytes`: one byte, `InternalType("origin", v)` when it is
not 0, 1 or 2. -/
def parseOrigin : List Nat → Except BgpError (Origin × List Nat)
  | [] => .error (.panic "get_u8")
  | b :: rest =>
    if b = 0 then .ok (.igp, rest)
    else if b = 1 then .ok (.egp, rest)
    else if b = 2 then .ok (.incomplete, rest)
    else .error (.internalType "origin" b)

theorem parseOrigin_encode (o : Origin) (rest : List Nat) :
    parseOrigin (encodeOrigin o ++ rest) = .ok (o, rest) := by
  cases o <;> rfl

/-- `AsSegmentType` (`repr(u8)` 1–4). -/
inductive AsSegmentType where
  | asSet : AsSegmentType
  | asSequence : AsSegmentType
  | confedSequence : AsSegmentType
  | confedSet : AsSegmentType
deriving DecidableEq

def AsSegmentType.toNat : AsSegmentType → Nat
  | .asSet => 1
  | .asSequence => 2
  | .confedSequence => 3
  | .confedSet => 4

/-- `AsSegmentType::from_u8`. -/
def asSegmentTypeFromNat (t : Nat) : Option AsSegmentType :=
  if t = 1 then some .asSet
  else if t = 2 then some .asSequence
  else if t = 3 then some .confedSequence
  else if t = 4 then some .confedSet
  else none

/-- `AsSegment` from `src/bgp/path.rs`: segment type, ASN list and the
`as4` marker recording the byte width used on the wire. -/
structure AsSegment where
  type_ : AsSegmentType
  asns : List Nat
  as4 : Bool
deriving DecidableEq

/-- `AsSegment::to_bytes`: type byte, count byte, then each ASN as four
(`as4`) or two bytes. -/
def encodeAsSegment (s : AsSegment) : List Nat :=
  s.type_.toNat :: s.asns.length % 256 ::
    (s.asns.map fun a => if s.as4 then w32 a else w16 a).flatten

/-- `AsPath::to_bytes`: concatenation of the segments. -/
def encodeAsPath (p : List AsSegment) : List Nat :=
  (p.map encodeAsSegment).flatten

/-- Read `n` big-endian `u16` values (`get_u16` in a loop). -/
def readU16s : Nat → List Nat → Except BgpError (List Nat × List Nat)
  | 0, src => .ok ([], src)
  | n + 1, b0 :: b1 :: rest =>
    match readU16s n rest with
    | .ok (vs, rem) => .ok ((b0 * 256 + b1) :: vs, rem)
    | .error e => .error e
  | _ + 1, _ => .error (.panic "get_u16")

/-- Read `n` big-endian `u32` values (`get_u32` in a loop). -/
def readU32s : Nat → List Nat → Except BgpError (List Nat × List Nat)
  | 0, src => .ok ([], src)
  | n + 1, b0 :: b1 :: b2 :: b3 :: rest =>
    match readU32s n rest with
    | .ok (vs, rem) =>
      .ok ((b0 * 16777216 + b1 * 65536 + b2 * 256 + b3) :: vs, rem)
    | .error e => .error e
  | _ + 1, _ => .error (.panic "get_u32")

/-- `AsSegment::from_bytes`: type and count bytes, then the ASN width is
inferred from `remaining / count`; any other ratio is
`InternalLength("AS segment", Equal)`, and a zero count is a Rust
division-by-zero panic. -/
def parseAsSegment : List Nat → Except BgpError (AsSegment × List Nat)
  | t :: len :: rest =>
    if len = 0 then .error (.panic "division by zero")
    else
      let per := rest.length / len
      if per = 2 then
        match readU16s len rest with
        | .ok (asns, rem) =>
          match asSegmentTypeFromNat t with
          | some ty => .ok (⟨ty, asns, false⟩, rem)
          | none => .error (.internalType "AS segment type" t)
        | .error e => .error e
      else if per = 4 then
        match readU32s len rest with
        | .ok (asns, rem) =>
          match asSegmentTypeFromNat t with
          | some ty => .ok (⟨ty, asns, true⟩, rem)
          | none => .error (.internalType "AS segment type" t)
        | .error e => .error e
      else .error (.internalLength "AS segment" .eq)
  | _ => .error (.panic "get_u8")

theorem readU16s_leftover {n : Nat} {src vs rem : List Nat}
    (h : readU16s n src = .ok (vs, rem)) : rem.length ≤ src.length := by
  induction n generalizing src vs rem with
  | zero =>
    rw [readU16s] at h
    cases h
    exact le_refl _
  | succ n ih =>
    match src, h with
    | b0 :: b1 :: rest, h =>
      rw [readU16s] at h
      cases hrec : readU16s n rest with
      | ok p =>
        rw [hrec] at h
        cases h
        have hh : readU16s n rest = .ok (p.1, p.2) := by rw [hrec]
        have := ih hh
        simp only [List.length_cons]
        omega
      | error e =>
        rw [hrec] at h
        cases h

theorem readU32s_leftover {n : Nat} {src vs rem : List Nat}
    (h : readU32s n src = .ok (vs, rem)) : rem.length ≤ src.length := by
  induction n generalizing src vs rem with
  | zero =>
    rw [readU32s] at h
    cases h
    exact le_refl _
  | succ n ih =>
    match src, h with
    | b0 :: b1 :: b2 :: b3 :: rest, h =>
      rw [readU32s] at h
      cases hrec : readU32s n rest with
      | ok p =>
        rw [hrec] at h
        cases h
        have hh : readU32s n rest = .ok (p.1, p.2) := by rw [hrec]
        have := ih hh
        simp only [List.length_cons]
        omega
      | error e =>
        rw [hrec] at h
        cases h

theorem parseAsSegment_leftover {src : List Nat} {s : AsSegment}
    {rem : List Nat} (h : parseAsSegment src = .ok (s, rem)) :
    rem.length < src.length := by
  match src, h with
  | t :: len :: rest, h =>
    rw [parseAsSegment] at h
    by_cases h0 : len = 0
    · rw [if_pos h0] at h
      cases h
    · rw [if_neg h0] at h
      by_cases h2 : rest.length / len = 2
      · rw [if_pos h2] at h
        cases hr : readU16s len rest with
        | ok p =>
          rw [hr] at h
          cases hty : asSegmentTypeFromNat t with
          | some ty =>
            rw [hty] at h
            cases h
            have hh : readU16s len rest = .ok (p.1, p.2) := by rw [hr]
            have := readU16s_leftover hh
            simp only [List.length_cons]
            omega
          | none =>
            rw [hty] at h
            cases h
        | error e =>
          rw [hr] at h
          cases h
      · rw [if_neg h2] at h
        by_cases h4 : rest.length / len = 4
        · rw [if_pos h4] at h
          cases hr : readU32s len rest with
          | ok p =>
            rw [hr] at h
            cases hty : asSegmentTypeFromNat t with
            | some ty =>
              rw [hty] at h
              cases h
              have hh : readU32s len rest = .ok (p.1, p.2) := by rw [hr]
              have := readU32s_leftover hh
              simp only [List.length_cons]
              omega
            | none =>
              rw [hty] at h
              cases h
          | error e =>
            rw [hr] at h
            cases h
        · rw [if_neg h4] at h
          cases h

/-- `AsPath::from_bytes`: parse segments until the buffer is exhausted. -/
def parseAsPath : List Nat → Except BgpError (List AsSegment)
  | [] => .ok []
  | a :: l =>
    match h : parseAsSegment (a :: l) with
    | .ok (s, rem) =>
      match parseAsPath rem with
      | .ok ss => .ok (s :: ss)
      | .error e => .error e
    | .error e => .error e
termination_by src => src.length
decreasing_by exact parseAsSegment_leftover h

@[simp] theorem parseAsPath_nil : parseAsPath [] = .ok [] := by
  rw [parseAsPath]

theorem readU16s_encode (asns : List Nat) (rest : List Nat)
    (h : ∀ a ∈ asns, a < 65536) :
    readU16s asns.length ((asns.map w16).flatten ++ rest) =
      .ok (asns, rest) := by
  induction asns with
  | nil => rfl
  | cons a asns ih =>
    simp only [List.map_cons, List.flatten_cons, List.length_cons, w16,
      List.cons_append, List.append_assoc, List.nil_append]
    rw [readU16s]
    rw [ih (fun x hx => h x (List.mem_cons_of_mem _ hx))]
    have ha : a < 65536 := h a (List.mem_cons_self _ _)
    have : a / 256 % 256 * 256 + a % 256 = a := by omega
    rw [this]

theorem readU32s_encode (asns : List Nat) (rest : List Nat)
    (h : ∀ a ∈ asns, a < 4294967296) :
    readU32s asns.length ((asns.map w32).flatten ++ rest) =
      .ok (asns, rest) := by
  induction asns with
  | nil => rfl
  | cons a asns ih =>
    simp only [List.map_cons, List.flatten_cons, List.length_cons, w32,
      List.cons_append, List.append_assoc, List.nil_append]
    rw [readU32s]
    rw [ih (fun x hx => h x (List.mem_cons_of_mem _ hx))]
    have ha : a < 4294967296 := h a (List.mem_cons_self _ _)
    have : a / 16777216 % 256 * 16777216 + a / 65536 % 256 * 65536 +
        a / 256 % 256 * 256 + a % 256 = a := by omega
    rw [this]

/-! ### IP addresses and next hops (`src/bgp/endec.rs`, `src/bgp/path.rs`) -/

/-- Single-byte reader (`get_u8`). -/
def r8 : List Nat → Except BgpError (Nat × List Nat)
  | b :: rest => .ok (b, rest)
  | _ => .error (.panic "get_u8")

/-- Big-endian `u16` reader (`get_u16`). -/
def r16 : List Nat → Except BgpError (Nat × List Nat)
  | b0 :: b1 :: rest => .ok (b0 * 256 + b1, rest)
  | _ => .error (.panic "get_u16")

/-- Big-endian `u32` reader (`get_u32`). -/
def r32 : List Nat → Except BgpError (Nat × List Nat)
  | b0 :: b1 :: b2 :: b3 :: rest =>
    .ok (b0 * 16777216 + b1 * 65536 + b2 * 256 + b3, rest)
  | _ => .error (.panic "get_u32")

/-- `std::net::IpAddr`: an IPv4 address is its `u32` value, an IPv6 address
its sixteen octets. -/
inductive IpAddr where
  | v4 (a : Nat) : IpAddr
  | v6 (octets : List Nat) : IpAddr
deriving DecidableEq

/-- `IpAddr::from_bytes` from `src/bgp/endec.rs`: dispatch on the buffer
size (4 → IPv4, 16 → IPv6, otherwise `InternalLength("IP address",
Equal)`); consumes the whole buffer. -/
def parseIpAddrAll (src : List Nat) : Except BgpError IpAddr :=
  if src.length = 4 then
    match r32 src with
    | .ok (v, _) => .ok (.v4 v)
    | .error e => .error e
  else if src.length = 16 then .ok (.v6 (src.take 16))
  else .error (.internalLength "IP address" .eq)

/-- Encoding of an IP address (`Ipv4Addr::to_bytes` / `Ipv6Addr::to_bytes`). -/
def encodeIpAddr : IpAddr → List Nat
  | .v4 a => w32 a
  | .v6 o => o

/-- `MpNextHop` from `src/bgp/path.rs`. -/
inductive MpNextHop where
  | single (ip : IpAddr) : MpNextHop
  | v6AndLL (g ll : List Nat) : MpNextHop
deriving DecidableEq

/-- `MpNextHop::from_bytes`: dispatch on the buffer size (4 or 16 → a
single address, 32 → global + link-local pair, otherwise
`InternalLength("MP_NEXT_HOP", Equal)`). -/
def parseMpNextHopAll (src : List Nat) : Except BgpError MpNextHop :=
  if src.length = 4 ∨ src.length = 16 then
    match parseIpAddrAll src with
    | .ok ip => .ok (.single ip)
    | .error e => .error e
  else if src.length = 32 then
    .ok (.v6AndLL (src.take 16) ((src.drop 16).take 16))
  else .error (.internalLength "MP_NEXT_HOP" .eq)

/-- `MpNextHop::to_bytes`. -/
def encodeMpNextHop : MpNextHop → List Nat
  | .single ip => encodeIpAddr ip
  | .v6AndLL g ll => g ++ ll

/-- `MpNextHop::encoded_len`: 4, 16 or 32. -/
def mpNextHopEncodedLen : MpNextHop → Nat
  | .single (.v4 _) => 4
  | .single (.v6 _) => 16
  | .v6AndLL _ _ => 32

/-- `Aggregator` from `src/bgp/path.rs`: a 16-bit ASN and an IPv4 address. -/
structure Aggregator where
  asn : Nat
  ip : Nat
deriving DecidableEq

/-- `MpReachNlri` from `src/bgp/path.rs`. -/
structure MpReachNlri where
  afi : Afi
  safi : Safi
  nextHop : MpNextHop
  nlri : Routes
deriving DecidableEq

/-- `MpUnreachNlri` from `src/bgp/path.rs`. -/
structure MpUnreachNlri where
  afi : Afi
  safi : Safi
  withdrawnRoutes : Routes
deriving DecidableEq

/-- `MpReachNlri::from_bytes`: AFI, SAFI, next-hop length and bytes, a
reserved byte, then NLRI to the end of the buffer. -/
def parseMpReach (src : List Nat) : Except BgpError MpReachNlri :=
  match r16 src with
  | .error e => .error e
  | .ok (afiN, s1) =>
    match parseAfiE "MP_REACH_NLRI AFI" afiN with
    | .error e => .error e
    | .ok afi =>
      match s1 with
      | [] => .error (.panic "get_u8")
      | safiB :: s2 =>
        match parseSafiE "MP_REACH_NLRI SAFI" safiB with
        | .error e => .error e
        | .ok safi =>
          match s2 with
          | [] => .error (.panic "get_u8")
          | nhLen :: s3 =>
            if nhLen ≤ s3.length then
              match parseMpNextHopAll (s3.take nhLen) with
              | .error e => .error e
              | .ok nh =>
                match s3.drop nhLen with
                | [] => .error (.panic "get_u8")
                | _reserved :: s4 =>
                  match parseRoutes s4 with
                  | .error e => .error e
                  | .ok rs => .ok ⟨afi, safi, nh, rs⟩
            else .error (.panic "split_to")

/-- `MpReachNlri::to_bytes`. -/
def encodeMpReach (v : MpReachNlri) : List Nat :=
  w16 v.afi.toNat ++ [v.safi.toNat % 256] ++
    [mpNextHopEncodedLen v.nextHop % 256] ++ encodeMpNextHop v.nextHop ++
    [0] ++ encodeRoutes v.nlri

/-- `MpUnreachNlri::from_bytes`: AFI, SAFI, then withdrawn routes to the
end of the buffer. -/
def parseMpUnreach (src : List Nat) : Except BgpError MpUnreachNlri :=
  match r16 src with
  | .error e => .error e
  | .ok (afiN, s1) =>
    match parseAfiE "MP_UNREACH_NLRI AFI" afiN with
    | .error e => .error e
    | .ok afi =>
      match s1 with
      | [] => .error (.panic "get_u8")
      | safiB :: s2 =>
        match parseSafiE "MP_UNREACH_NLRI SAFI" safiB with
        | .error e => .error e
        | .ok safi =>
          match parseRoutes s2 with
          | .error e => .error e
          | .ok rs => .ok ⟨afi, safi, rs⟩

/-- `MpUnreachNlri::to_bytes`. -/
def encodeMpUnreach (v : MpUnreachNlri) : List Nat :=
  w16 v.afi.toNat ++ [v.safi.toNat % 256] ++ encodeRoutes v.withdrawnRoutes

/-! ### Path attributes (`src/bgp/path.rs`) -/

/-- `Flags::is_optional` exactly as written in the source:
`self.0 & 0x80 == 0`. -/
def isOptional (f : Nat) : Bool := f &&& 128 == 0

/-- `Flags::is_transitive`: `self.0 & 0x40 != 0`. -/
def isTransitive (f : Nat) : Bool := f &&& 64 != 0

/-- `Flags::is_partial`: `self.0 & 0x20 != 0`. -/
def isPartial (f : Nat) : Bool := f &&& 32 != 0

/-- `Flags::is_extended_length`: `self.0 & 0x10 != 0`. -/
def isExtendedLength (f : Nat) : Bool := f &&& 16 != 0

/-- `Flags::WELL_KNOWN_COMPLETE` = `0b0100_0000`. -/
def wellKnownComplete : Nat := 64

/-- `Flags::OPTIONAL_TRANSITIVE_EXTENDED` = `0b1001_0000`. -/
def optionalTransitiveExtended : Nat := 144

/-- `path::Data`: the tagged payload of a path attribute. -/
inductive PathData where
  | origin (o : Origin) : PathData
  | asPath (p : List AsSegment) : PathData
  | nextHop (ip : Nat) : PathData
  | multiExitDisc (v : Nat) : PathData
  | localPref (v : Nat) : PathData
  | atomicAggregate : PathData
  | aggregator (a : Aggregator) : PathData
  | mpReachNlri (v : MpReachNlri) : PathData
  | mpUnreachNlri (v : MpUnreachNlri) : PathData
  | as4Path (p : List AsSegment) : PathData
  | unsupported (t : Nat) (data : List Nat) : PathData
deriving DecidableEq

/-- `From<&Data> for u8`: the attribute type code. -/
def PathData.typeCode : PathData → Nat
  | .origin _ => 1
  | .asPath _ => 2
  | .nextHop _ => 3
  | .multiExitDisc _ => 4
  | .localPref _ => 5
  | .atomicAggregate => 6
  | .aggregator _ => 7
  | .mpReachNlri _ => 14
  | .mpUnreachNlri _ => 15
  | .as4Path _ => 17
  | .unsupported t _ => t

/-- `path::Value`: flags byte plus data. -/
structure PathAttr where
  flags : Nat
  data : PathData
deriving DecidableEq

/-- `path::PathAttributes`. -/
abbrev PathAttributes := List PathAttr

/-- The data bytes written by `Value::to_bytes` for each variant. -/
def encodePathData : PathData → List Nat
  | .origin o => encodeOrigin o
  | .asPath p => encodeAsPath p
  | .nextHop ip => w32 ip
  | .multiExitDisc v => w32 v
  | .localPref v => w32 v
  | .atomicAggregate => []
  | .aggregator a => w16 a.asn ++ w32 a.ip
  | .mpReachNlri v => encodeMpReach v
  | .mpUnreachNlri v => encodeMpUnreach v
  | .as4Path p => encodeAsPath p
  | .unsupported _ d => d

/-- `Value::to_bytes`: flags, type code, one- or two-byte length depending
on the extended-length flag bit, then the data bytes. -/
def encodePathAttr (v : PathAttr) : List Nat :=
  let d := encodePathData v.data
  v.flags % 256 :: v.data.typeCode % 256 ::
    ((if isExtendedLength v.flags then w16 d.length else [d.length % 256]) ++ d)

/-- `PathAttributes::to_bytes`. -/
def encodePathAttributes (vs : PathAttributes) : List Nat :=
  (vs.map encodePathAttr).flatten

/-- The dispatch of `Value::from_bytes` on the attribute type code, applied
to the split-off data buffer (surplus bytes inside the declared length are
silently dropped, exactly as in the source). -/
def parsePathData (t : Nat) (sub : List Nat) : Except BgpError PathData :=
  if t = 1 then
    match parseOrigin sub with
    | .ok (o, _) => .ok (.origin o)
    | .error e => .error e
  else if t = 2 then
    match parseAsPath sub with
    | .ok p => .ok (.asPath p)
    | .error e => .error e
  else if t = 3 then
    match r32 sub with
    | .ok (v, _) => .ok (.nextHop v)
    | .error e => .error e
  else if t = 4 then
    match r32 sub with
    | .ok (v, _) => .ok (.multiExitDisc v)
    | .error e => .error e
  else if t = 5 then
    match r32 sub with
    | .ok (v, _) => .ok (.localPref v)
    | .error e => .error e
  else if t = 6 then .ok .atomicAggregate
  else if t = 7 then
    match r16 sub with
    | .ok (asn, s1) =>
      match r32 s1 with
      | .ok (ip, _) => .ok (.aggregator ⟨asn, ip⟩)
      | .error e => .error e
    | .error e => .error e
  else if t = 14 then
    match parseMpReach sub with
    | .ok v => .ok (.mpReachNlri v)
    | .error e => .error e
  else if t = 15 then
    match parseMpUnreach sub with
    | .ok v => .ok (.mpUnreachNlri v)
    | .error e => .error e
  else if t = 17 then
    match parseAsPath sub with
    | .ok p => .ok (.as4Path p)
    | .error e => .error e
  else .ok (.unsupported t sub)

/-- Reading the declared data length and splitting it off
(`src.split_to(len)` in `Value::from_bytes`). -/
def parsePathAttrBody (flags t len : Nat) (src : List Nat) :
    Except BgpError (PathAttr × List Nat) :=
  if len ≤ src.length then
    match parsePathData t (src.take len) with
    | .ok d => .ok (⟨flags, d⟩, src.drop len)
    | .error e => .error e
  else .error (.panic "split_to")

theorem r8_leftover {src : List Nat} {v : Nat} {rem : List Nat}
    (h : r8 src = .ok (v, rem)) : rem.length + 1 = src.length := by
  match src, h with
  | b :: rest, h =>
    rw [r8] at h
    cases h
    rfl

theorem r16_leftover {src : List Nat} {v : Nat} {rem : List Nat}
    (h : r16 src = .ok (v, rem)) : rem.length + 2 = src.length := by
  match src, h with
  | b0 :: b1 :: rest, h =>
    rw [r16] at h
    cases h
    rfl

/-- `Value::from_bytes`: flags, type, one- or two-byte length, data. -/
def parsePathAttr : List Nat → Except BgpError (PathAttr × List Nat)
  | flags :: t :: rest =>
    if isExtendedLength flags then
      match r16 rest with
      | .ok (len, rest2) => parsePathAttrBody flags t len rest2
      | .error e => .error e
    else
      match r8 rest with
      | .ok (len, rest2) => parsePathAttrBody flags t len rest2
      | .error e => .error e
  | _ => .error (.panic "get_u8")

theorem parsePathAttrBody_leftover {flags t len : Nat} {src2 : List Nat}
    {v : PathAttr} {rem : List Nat}
    (h : parsePathAttrBody flags t len src2 = .ok (v, rem)) :
    rem.length ≤ src2.length := by
  rw [parsePathAttrBody] at h
  by_cases hl : len ≤ src2.length
  · rw [if_pos hl] at h
    cases hd : parsePathData t (src2.take len) with
    | ok d =>
      rw [hd] at h
      cases h
      simp only [List.length_drop]
      omega
    | error e =>
      rw [hd] at h
      cases h
  · rw [if_neg hl] at h
    cases h

theorem parsePathAttr_leftover {src : List Nat} {v : PathAttr}
    {rem : List Nat} (h : parsePathAttr src = .ok (v, rem)) :
    rem.length < src.length := by
  match src, h with
  | flags :: t :: rest, h =>
    rw [parsePathAttr] at h
    by_cases hx : isExtendedLength flags
    · rw [if_pos hx] at h
      cases hr : r16 rest with
      | ok p =>
        rw [hr] at h
        have hh1 : r16 rest = .ok (p.1, p.2) := by rw [hr]
        have h1 := r16_leftover hh1
        have hh2 : parsePathAttrBody flags t p.1 p.2 = .ok (v, rem) := by
          rw [← h]
        have h2 := parsePathAttrBody_leftover hh2
        simp only [List.length_cons]
        omega
      | error e =>
        rw [hr] at h
        cases h
    · rw [if_neg hx] at h
      cases hr : r8 rest with
      | ok p =>
        rw [hr] at h
        have hh1 : r8 rest = .ok (p.1, p.2) := by rw [hr]
        have h1 := r8_leftover hh1
        have hh2 : parsePathAttrBody flags t p.1 p.2 = .ok (v, rem) := by
          rw [← h]
        have h2 := parsePathAttrBody_leftover hh2
        simp only [List.length_cons]
        omega
      | error e =>
        rw [hr] at h
        cases h

/-- `PathAttributes::from_bytes`: parse attributes until the buffer is
exhausted. -/
def parsePathAttributes : List Nat → Except BgpError PathAttributes
  | [] => .ok []
  | a :: l =>
    match h : parsePathAttr (a :: l) with
    | .ok (v, rem) =>
      match parsePathAttributes rem with
      | .ok vs => .ok (v :: vs)
      | .error e => .error e
    | .error e => .error e
termination_by src => src.length
decreasing_by exact parsePathAttr_leftover h

@[simp] theorem parsePathAttributes_nil : parsePathAttributes [] = .ok [] := by
  rw [parsePathAttributes]

/-! ### Source `encoded_len` functions for the path layer -/

/-- `AsSegment::encoded_len` summed over a path
(`AsPath::encoded_len`). -/
def asPathEncodedLen (p : List AsSegment) : Nat :=
  (p.map fun s => 2 + s.asns.length * (if s.as4 then 4 else 2)).sum

/-- The per-variant `encoded_len` of `Value::encoded_len`. -/
def pathDataEncodedLen : PathData → Nat
  | .origin _ => 1
  | .asPath p => asPathEncodedLen p
  | .nextHop _ => 4
  | .multiExitDisc _ => 4
  | .localPref _ => 4
  | .atomicAggregate => 0
  | .aggregator _ => 4 + 2
  | .mpReachNlri v =>
    2 + 1 + 1 + mpNextHopEncodedLen v.nextHop + 1 + sliceEncodedLen v.nlri
  | .mpUnreachNlri v => 3 + sliceEncodedLen v.withdrawnRoutes
  | .as4Path p => asPathEncodedLen p
  | .unsupported _ d => d.length

/-- `Value::encoded_len`. -/
def pathAttrEncodedLen (v : PathAttr) : Nat :=
  1 + 1 + (if isExtendedLength v.flags then 2 else 1) +
    pathDataEncodedLen v.data

/-- `PathAttributes::encoded_len`. -/
def pathAttrsEncodedLen (vs : PathAttributes) : Nat :=
  (vs.map pathAttrEncodedLen).sum

/-! ### Representation invariants of the path layer -/

/-- Sixteen octets. -/
def wfIpv6 (o : List Nat) : Bool :=
  decide (o.length = 16) && o.all fun b => decide (b < 256)

def wfIpAddr : IpAddr → Bool
  | .v4 a => decide (a < 4294967296)
  | .v6 o => wfIpv6 o

def wfMpNextHop : MpNextHop → Bool
  | .single ip => wfIpAddr ip
  | .v6AndLL g ll => wfIpv6 g && wfIpv6 ll

/-- An AS segment the codec can reproduce: a non-empty ASN list whose
count fits one byte and whose ASNs fit the selected width. -/
def wfAsSegment (s : AsSegment) : Bool :=
  decide (1 ≤ s.asns.length) && decide (s.asns.length < 256) &&
    (if s.as4 then s.asns.all fun a => decide (a < 4294967296)
     else s.asns.all fun a => decide (a < 65536))

/-- An AS path the codec can reproduce.  The decoder infers the ASN width
of a segment from `remaining_bytes / count` where `remaining_bytes` spans
all following segments as well, so only paths of at most one segment are
reliably re-parsed. -/
def wfAsPath (p : List AsSegment) : Bool :=
  decide (p.length ≤ 1) && p.all wfAsSegment

def wfAggregator (a : Aggregator) : Bool :=
  decide (a.asn < 65536) && decide (a.ip < 4294967296)

def wfMpReach (v : MpReachNlri) : Bool :=
  wfMpNextHop v.nextHop && wfRoutes v.nlri

def wfMpUnreach (v : MpUnreachNlri) : Bool :=
  wfRoutes v.withdrawnRoutes

/-- The attribute type codes understood by `Value::from_bytes`. -/
def knownPathTypes : List Nat := [1, 2, 3, 4, 5, 6, 7, 14, 15, 17]

def wfPathData : PathData → Bool
  | .origin _ => true
  | .asPath p => wfAsPath p
  | .nextHop a => decide (a < 4294967296)
  | .multiExitDisc v => decide (v < 4294967296)
  | .localPref v => decide (v < 4294967296)
  | .atomicAggregate => true
  | .aggregator a => wfAggregator a
  | .mpReachNlri v => wfMpReach v
  | .mpUnreachNlri v => wfMpUnreach v
  | .as4Path p => wfAsPath p
  | .unsupported t d =>
    decide (t < 256) && decide (t ∉ knownPathTypes) &&
      d.all fun b => decide (b < 256)

/-- A path attribute the codec can reproduce: byte-sized flags, well-formed
data, and a data length that fits the length field selected by the
extended-length flag bit. -/
def wfPathAttr (v : PathAttr) : Bool :=
  decide (v.flags < 256) && wfPathData v.data &&
    (if isExtendedLength v.flags
     then decide ((encodePathData v.data).length < 65536)
     else decide ((encodePathData v.data).length < 256))

def wfPathAttrs (vs : PathAttributes) : Bool := vs.all wfPathAttr

/-! ### Round-trip lemmas for the path layer -/

theorem r16_w16 (n : Nat) (rest : List Nat) (h : n < 65536) :
    r16 (w16 n ++ rest) = .ok (n, rest) := by
  simp only [w16, List.cons_append, List.nil_append, r16]
  have : n / 256 % 256 * 256 + n % 256 = n := by omega
  rw [this]

theorem r32_w32 (n : Nat) (rest : List Nat) (h : n < 4294967296) :
    r32 (w32 n ++ rest) = .ok (n, rest) := by
  simp only [w32, List.cons_append, List.nil_append, r32]
  have : n / 16777216 % 256 * 16777216 + n / 65536 % 256 * 65536 +
      n / 256 % 256 * 256 + n % 256 = n := by omega
  rw [this]

theorem encodeIpAddr_length (ip : IpAddr) (h : wfIpAddr ip = true) :
    (encodeIpAddr ip).length = mpNextHopEncodedLen (.single ip) := by
  cases ip with
  | v4 a => rfl
  | v6 o =>
    simp only [wfIpAddr, wfIpv6, Bool.and_eq_true, decide_eq_true_eq] at h
    simp [encodeIpAddr, mpNextHopEncodedLen, h.1]

theorem encodeMpNextHop_length (nh : MpNextHop) (h : wfMpNextHop nh = true) :
    (encodeMpNextHop nh).length = mpNextHopEncodedLen nh := by
  cases nh with
  | single ip => exact encodeIpAddr_length ip h
  | v6AndLL g ll =>
    simp only [wfMpNextHop, wfIpv6, Bool.and_eq_true, decide_eq_true_eq] at h
    simp [encodeMpNextHop, mpNextHopEncodedLen, h.1.1, h.2.1]

theorem parseIpAddrAll_encode (ip : IpAddr) (h : wfIpAddr ip = true) :
    parseIpAddrAll (encodeIpAddr ip) = .ok ip := by
  cases ip with
  | v4 a =>
    simp only [wfIpAddr, decide_eq_true_eq] at h
    rw [parseIpAddrAll]
    rw [if_pos (by rfl)]
    have := r32_w32 a [] h
    rw [List.append_nil] at this
    rw [show encodeIpAddr (.v4 a) = w32 a from rfl, this]
  | v6 o =>
    simp only [wfIpAddr, wfIpv6, Bool.and_eq_true, decide_eq_true_eq] at h
    rw [parseIpAddrAll]
    rw [show encodeIpAddr (.v6 o) = o from rfl]
    rw [if_neg (by simp [h.1]), if_pos h.1]
    rw [← h.1, List.take_length]

theorem parseMpNextHopAll_encode (nh : MpNextHop)
    (h : wfMpNextHop nh = true) :
    parseMpNextHopAll (encodeMpNextHop nh) = .ok nh := by
  cases nh with
  | single ip =>
    have h' : wfIpAddr ip = true := by simpa [wfMpNextHop] using h
    rw [parseMpNextHopAll]
    rw [show encodeMpNextHop (.single ip) = encodeIpAddr ip from rfl]
    have hlen := encodeIpAddr_length ip h'
    cases ip with
    | v4 a =>
      rw [if_pos (by rw [hlen]; exact Or.inl rfl)]
      rw [parseIpAddrAll_encode _ h']
    | v6 o =>
      rw [if_pos (by rw [hlen]; exact Or.inr rfl)]
      rw [parseIpAddrAll_encode _ h']
  | v6AndLL g ll =>
    simp only [wfMpNextHop, wfIpv6, Bool.and_eq_true, decide_eq_true_eq] at h
    rw [parseMpNextHopAll]
    have hg : g.length = 16 := h.1.1
    have hll : ll.length = 16 := h.2.1
    have hlen : (encodeMpNextHop (.v6AndLL g ll)).length = 32 := by
      simp [encodeMpNextHop, hg, hll]
    rw [if_neg (by rw [hlen]; omega), if_pos hlen]
    rw [show encodeMpNextHop (.v6AndLL g ll) = g ++ ll from rfl]
    have e2 : (g ++ ll).drop 16 = ll := by
      rw [← hg]
      exact List.drop_left g ll
    have e1 : (g ++ ll).take 16 = g := by
      rw [← hg]
      exact List.take_left g ll
    rw [e2, e1, ← hll, List.take_length]

theorem safiToNat_lt (s : Safi) : s.toNat < 256 := by
  cases s <;> simp [Safi.toNat]

theorem afiToNat_lt (a : Afi) : a.toNat < 65536 := by
  cases a <;> simp [Afi.toNat]

theorem parseMpReach_encode (v : MpReachNlri) (h : wfMpReach v = true) :
    parseMpReach (encodeMpReach v) = .ok v := by
  simp only [wfMpReach, Bool.and_eq_true] at h
  rw [parseMpReach, encodeMpReach]
  simp only [List.append_assoc]
  rw [r16_w16 _ _ (afiToNat_lt v.afi)]
  have hnh := encodeMpNextHop_length v.nextHop h.1
  have hmod : mpNextHopEncodedLen v.nextHop % 256 = mpNextHopEncodedLen v.nextHop := by
    cases v.nextHop with
    | single ip => cases ip <;> rfl
    | v6AndLL g ll => rfl
  simp only [parseAfiE_toNat, List.cons_append, List.nil_append,
    Nat.mod_eq_of_lt (safiToNat_lt v.safi), parseSafiE_toNat, hmod]
  rw [if_pos (by simp only [List.length_append]; omega)]
  rw [show mpNextHopEncodedLen v.nextHop = (encodeMpNextHop v.nextHop).length from hnh.symm]
  rw [List.take_left, List.drop_left]
  rw [parseMpNextHopAll_encode _ h.1]
  simp only [parseRoutes_encode _ h.2]

theorem parseMpUnreach_encode (v : MpUnreachNlri) (h : wfMpUnreach v = true) :
    parseMpUnreach (encodeMpUnreach v) = .ok v := by
  rw [parseMpUnreach, encodeMpUnreach]
  simp only [List.append_assoc]
  rw [r16_w16 _ _ (afiToNat_lt v.afi)]
  simp only [parseAfiE_toNat, List.cons_append, List.nil_append,
    Nat.mod_eq_of_lt (safiToNat_lt v.safi), parseSafiE_toNat,
    parseRoutes_encode _ h]

theorem asSegmentTypeFromNat_toNat (ty : AsSegmentType) :
    asSegmentTypeFromNat ty.toNat = some ty := by
  cases ty <;> rfl

theorem flatten_map_w16_length (asns : List Nat) :
    ((asns.map w16).flatten).length = 2 * asns.length := by
  induction asns with
  | nil => rfl
  | cons a asns ih =>
    simp only [List.map_cons, List.flatten_cons, List.length_append, ih,
      w16_length, List.length_cons]
    omega

theorem flatten_map_w32_length (asns : List Nat) :
    ((asns.map w32).flatten).length = 4 * asns.length := by
  induction asns with
  | nil => rfl
  | cons a asns ih =>
    simp only [List.map_cons, List.flatten_cons, List.length_append, ih,
      w32_length, List.length_cons]
    omega

theorem parseAsSegment_encode (s : AsSegment) (h : wfAsSegment s = true) :
    parseAsSegment (encodeAsSegment s) = .ok (s, []) := by
  obtain ⟨ty, asns, as4⟩ := s
  simp only [wfAsSegment, Bool.and_eq_true, decide_eq_true_eq] at h
  obtain ⟨⟨h1, h2⟩, h3⟩ := h
  cases as4 with
  | true =>
    have henc : encodeAsSegment ⟨ty, asns, true⟩ =
        ty.toNat :: asns.length % 256 :: (asns.map w32).flatten := by
      simp [encodeAsSegment]
    rw [henc, parseAsSegment, Nat.mod_eq_of_lt h2]
    rw [if_neg (by omega)]
    simp only [flatten_map_w32_length]
    have hdiv : 4 * asns.length / asns.length = 4 := by
      rw [Nat.mul_div_assoc 4 (dvd_refl _), Nat.div_self (by omega), Nat.mul_one]
    rw [hdiv]
    rw [if_neg (by omega), if_pos rfl]
    have := readU32s_encode asns []
      (by simpa [List.all_eq_true, decide_eq_true_eq] using h3)
    rw [List.append_nil] at this
    rw [this, asSegmentTypeFromNat_toNat]
  | false =>
    have henc : encodeAsSegment ⟨ty, asns, false⟩ =
        ty.toNat :: asns.length % 256 :: (asns.map w16).flatten := by
      simp [encodeAsSegment]
    rw [henc, parseAsSegment, Nat.mod_eq_of_lt h2]
    rw [if_neg (by omega)]
    simp only [flatten_map_w16_length]
    have hdiv : 2 * asns.length / asns.length = 2 := by
      rw [Nat.mul_div_assoc 2 (dvd_refl _), Nat.div_self (by omega), Nat.mul_one]
    rw [hdiv]
    rw [if_pos rfl]
    have := readU16s_encode asns []
      (by simpa [List.all_eq_true, decide_eq_true_eq] using h3)
    rw [List.append_nil] at this
    rw [this, asSegmentTypeFromNat_toNat]

theorem parseAsPath_encode (p : List AsSegment) (h : wfAsPath p = true) :
    parseAsPath (encodeAsPath p) = .ok p := by
  simp only [wfAsPath, Bool.and_eq_true, decide_eq_true_eq] at h
  obtain ⟨h1, h2⟩ := h
  match p, h1 with
  | [], _ => simp [encodeAsPath]
  | [s], _ =>
    have hwf : wfAsSegment s = true := by
      simpa [List.all_cons] using h2
    have henc : encodeAsPath [s] = encodeAsSegment s := by
      simp [encodeAsPath]
    rw [henc]
    have hseg := parseAsSegment_encode s hwf
    obtain ⟨ty, asns, as4⟩ := s
    have hne : encodeAsSegment ⟨ty, asns, as4⟩ =
        ty.toNat :: asns.length % 256 ::
          (asns.map fun a => if as4 then w32 a else w16 a).flatten := rfl
    rw [hne] at hseg ⊢
    rw [parseAsPath, hseg]
    simp

theorem encodeAsSegment_length (s : AsSegment) :
    (encodeAsSegment s).length = 2 + s.asns.length * (if s.as4 then 4 else 2) := by
  obtain ⟨ty, asns, as4⟩ := s
  cases as4 with
  | true =>
    have h32 := flatten_map_w32_length asns
    have he : encodeAsSegment ⟨ty, asns, true⟩ =
        ty.toNat :: asns.length % 256 :: (asns.map w32).flatten := by
      simp [encodeAsSegment]
    rw [he]
    simp only [List.length_cons, h32]
    simp only [show ((⟨ty, asns, true⟩ : AsSegment).as4 = true) from rfl,
      if_pos]
    omega
  | false =>
    have h16 := flatten_map_w16_length asns
    have he : encodeAsSegment ⟨ty, asns, false⟩ =
        ty.toNat :: asns.length % 256 :: (asns.map w16).flatten := by
      simp [encodeAsSegment]
    rw [he]
    simp only [List.length_cons, h16]
    simp only [show ((⟨ty, asns, false⟩ : AsSegment).as4 = false) from rfl,
      Bool.false_eq_true, if_neg, if_false]
    omega

theorem encodeAsPath_length (p : List AsSegment) :
    (encodeAsPath p).length = asPathEncodedLen p := by
  induction p with
  | nil => rfl
  | cons s p ih =>
    simp only [encodeAsPath, List.map_cons, List.flatten_cons,
      List.length_append, asPathEncodedLen, List.sum_cons] at *
    rw [ih, encodeAsSegment_length]

theorem encodePathData_length (d : PathData) (h : wfPathData d = true) :
    (encodePathData d).length = pathDataEncodedLen d := by
  cases d with
  | origin o => rfl
  | asPath p => exact encodeAsPath_length p
  | nextHop a => rfl
  | multiExitDisc v => rfl
  | localPref v => rfl
  | atomicAggregate => rfl
  | aggregator a => rfl
  | mpReachNlri v =>
    simp only [wfPathData, wfMpReach, Bool.and_eq_true] at h
    simp only [encodePathData, encodeMpReach, pathDataEncodedLen,
      List.length_append, w16_length, List.length_cons, List.length_nil,
      encodeRoutes_length, encodeMpNextHop_length v.nextHop h.1]
  | mpUnreachNlri v =>
    simp only [encodePathData, encodeMpUnreach, pathDataEncodedLen,
      List.length_append, w16_length, List.length_cons, List.length_nil,
      encodeRoutes_length]
  | as4Path p => exact encodeAsPath_length p
  | unsupported t dd => rfl

theorem typeCode_lt (d : PathData) (h : wfPathData d = true) :
    d.typeCode < 256 := by
  cases d with
  | unsupported t dd =>
    simp only [wfPathData, Bool.and_eq_true, decide_eq_true_eq] at h
    exact h.1.1
  | origin o => norm_num [PathData.typeCode]
  | asPath p => norm_num [PathData.typeCode]
  | nextHop a => norm_num [PathData.typeCode]
  | multiExitDisc v => norm_num [PathData.typeCode]
  | localPref v => norm_num [PathData.typeCode]
  | atomicAggregate => norm_num [PathData.typeCode]
  | aggregator a => norm_num [PathData.typeCode]
  | mpReachNlri v => norm_num [PathData.typeCode]
  | mpUnreachNlri v => norm_num [PathData.typeCode]
  | as4Path p => norm_num [PathData.typeCode]

theorem parsePathData_encode (d : PathData) (h : wfPathData d = true) :
    parsePathData d.typeCode (encodePathData d) = .ok d := by
  cases d with
  | origin o =>
    have := parseOrigin_encode o []
    rw [List.append_nil] at this
    simp [parsePathData, PathData.typeCode, encodePathData, this]
  | asPath p =>
    simp [parsePathData, PathData.typeCode, encodePathData,
      parseAsPath_encode p h]
  | nextHop a =>
    simp only [wfPathData, decide_eq_true_eq] at h
    have := r32_w32 a [] h
    rw [List.append_nil] at this
    simp [parsePathData, PathData.typeCode, encodePathData, this]
  | multiExitDisc v =>
    simp only [wfPathData, decide_eq_true_eq] at h
    have := r32_w32 v [] h
    rw [List.append_nil] at this
    simp [parsePathData, PathData.typeCode, encodePathData, this]
  | localPref v =>
    simp only [wfPathData, decide_eq_true_eq] at h
    have := r32_w32 v [] h
    rw [List.append_nil] at this
    simp [parsePathData, PathData.typeCode, encodePathData, this]
  | atomicAggregate => rfl
  | aggregator a =>
    simp only [wfPathData, wfAggregator, Bool.and_eq_true,
      decide_eq_true_eq] at h
    have h1 := r16_w16 a.asn (w32 a.ip) h.1
    have h2 := r32_w32 a.ip [] h.2
    rw [List.append_nil] at h2
    simp [parsePathData, PathData.typeCode, encodePathData, h1, h2]
  | mpReachNlri v =>
    simp [parsePathData, PathData.typeCode, encodePathData,
      parseMpReach_encode v h]
  | mpUnreachNlri v =>
    simp [parsePathData, PathData.typeCode, encodePathData,
      parseMpUnreach_encode v h]
  | as4Path p =>
    simp [parsePathData, PathData.typeCode, encodePathData,
      parseAsPath_encode p h]
  | unsupported t dd =>
    simp only [wfPathData, Bool.and_eq_true, decide_eq_true_eq] at h
    have hc := h.1.2
    simp only [knownPathTypes, List.mem_cons, List.mem_singleton,
      List.not_mem_nil, not_or] at hc
    simp [parsePathData, PathData.typeCode, hc.1, hc.2.1, hc.2.2.1,
      hc.2.2.2.1, hc.2.2.2.2.1, hc.2.2.2.2.2.1, hc.2.2.2.2.2.2.1,
      hc.2.2.2.2.2.2.2.1, hc.2.2.2.2.2.2.2.2.1, hc.2.2.2.2.2.2.2.2.2,
      encodePathData]

theorem parsePathAttr_encode (v : PathAttr) (h : wfPathAttr v = true)
    (rest : List Nat) :
    parsePathAttr (encodePathAttr v ++ rest) = .ok (v, rest) := by
  simp only [wfPathAttr, Bool.and_eq_true, decide_eq_true_eq] at h
  obtain ⟨⟨hf, hd⟩, hl⟩ := h
  have hfm : v.flags % 256 = v.flags := Nat.mod_eq_of_lt hf
  have htm : v.data.typeCode % 256 = v.data.typeCode :=
    Nat.mod_eq_of_lt (typeCode_lt _ hd)
  rw [encodePathAttr]
  simp only [List.cons_append, List.append_assoc, hfm, htm]
  rw [parsePathAttr]
  by_cases hx : isExtendedLength v.flags
  · rw [if_pos hx]
    rw [if_pos hx]
    rw [if_pos hx] at hl
    simp only [decide_eq_true_eq] at hl
    rw [r16_w16 _ _ hl]
    simp only [parsePathAttrBody]
    rw [if_pos (by simp only [List.length_append]; omega)]
    rw [List.take_left, List.drop_left]
    rw [parsePathData_encode _ hd]
  · rw [if_neg hx]
    rw [if_neg hx]
    rw [if_neg hx] at hl
    simp only [decide_eq_true_eq] at hl
    simp only [List.singleton_append]
    rw [show r8 ((encodePathData v.data).length % 256 ::
        (encodePathData v.data ++ rest)) =
      .ok ((encodePathData v.data).length % 256,
        encodePathData v.data ++ rest) from rfl]
    rw [Nat.mod_eq_of_lt hl]
    simp only [parsePathAttrBody]
    rw [if_pos (by simp only [List.length_append]; omega)]
    rw [List.take_left, List.drop_left]
    rw [parsePathData_encode _ hd]

theorem encodePathAttr_ne_nil (v : PathAttr) : encodePathAttr v ≠ [] := by
  simp [encodePathAttr]

theorem parsePathAttributes_cons_of (bs : List Nat) (v : PathAttr)
    (rem : List Nat) (hne : bs ≠ []) (h : parsePathAttr bs = .ok (v, rem)) :
    parsePathAttributes bs =
      match parsePathAttributes rem with
      | .ok vs => .ok (v :: vs)
      | .error e => .error e := by
  match bs, hne with
  | a :: l, _ =>
    rw [parsePathAttributes, h]

theorem parsePathAttributes_encode (vs : PathAttributes)
    (h : wfPathAttrs vs = true) :
    parsePathAttributes (encodePathAttributes vs) = .ok vs := by
  induction vs with
  | nil => simp [encodePathAttributes]
  | cons v vs ih =>
    simp only [wfPathAttrs, List.all_cons, Bool.and_eq_true] at h
    have henc : encodePathAttributes (v :: vs) =
        encodePathAttr v ++ encodePathAttributes vs := by
      simp [encodePathAttributes]
    rw [henc]
    rw [parsePathAttributes_cons_of _ v (encodePathAttributes vs)
      (by simp [encodePathAttr]) (parsePathAttr_encode v h.1 _)]
    rw [ih (by simpa [wfPathAttrs] using h.2)]

theorem encodePathAttr_length (v : PathAttr) (h : wfPathAttr v = true) :
    (encodePathAttr v).length = pathAttrEncodedLen v := by
  simp only [wfPathAttr, Bool.and_eq_true, decide_eq_true_eq] at h
  rw [encodePathAttr, pathAttrEncodedLen]
  by_cases hx : isExtendedLength v.flags
  · simp [hx, encodePathData_length _ h.1.2]
    omega
  · simp [hx, encodePathData_length _ h.1.2]
    omega

theorem encodePathAttributes_length (vs : PathAttributes)
    (h : wfPathAttrs vs = true) :
    (encodePathAttributes vs).length = pathAttrsEncodedLen vs := by
  induction vs with
  | nil => rfl
  | cons v vs ih =>
    simp only [wfPathAttrs, List.all_cons, Bool.and_eq_true] at h
    have henc : encodePathAttributes (v :: vs) =
        encodePathAttr v ++ encodePathAttributes vs := by
      simp [encodePathAttributes]
    rw [henc]
    simp only [List.length_append, pathAttrsEncodedLen, List.map_cons,
      List.sum_cons]
    rw [encodePathAttr_length v h.1, ih (by simpa [wfPathAttrs] using h.2)]
    rfl

/-! ### Capabilities (`src/bgp/capability.rs`) -/

/-- `ExtendedNextHopValue`. -/
structure EnhVal where
  afi : Afi
  safi : Safi
  nextHopAfi : Afi
deriving DecidableEq

/-- `capability::Value`. -/
inductive CapValue where
  | multiProtocol (afi : Afi) (safi : Safi) : CapValue
  | routeRefresh : CapValue
  | extendedNextHop (vals : List EnhVal) : CapValue
  | extendedMessage : CapValue
  | fourOctetAsNumber (asn : Nat) : CapValue
  | unsupported (code : Nat) (data : List Nat) : CapValue
deriving DecidableEq

/-- `capability::Capabilities`. -/
abbrev Capabilities := List CapValue

/-- `From<&Value> for u8`: the capability code. -/
def CapValue.code : CapValue → Nat
  | .multiProtocol _ _ => 1
  | .routeRefresh => 2
  | .extendedNextHop _ => 5
  | .extendedMessage => 6
  | .fourOctetAsNumber _ => 65
  | .unsupported c _ => c

/-- `ExtendedNextHop::to_bytes`: three `u16` per triple. -/
def encodeEnh (vals : List EnhVal) : List Nat :=
  (vals.map fun v =>
    w16 v.afi.toNat ++ w16 v.safi.toNat ++ w16 v.nextHopAfi.toNat).flatten

/-- The value bytes of each capability, as in `Capabilities::to_bytes`. -/
def encodeCapData : CapValue → List Nat
  | .multiProtocol afi safi => w16 afi.toNat ++ [0, safi.toNat % 256]
  | .routeRefresh => []
  | .extendedNextHop vals => encodeEnh vals
  | .extendedMessage => []
  | .fourOctetAsNumber asn => w32 asn
  | .unsupported _ d => d

/-- One capability TLV: code, length byte, value bytes. -/
def encodeCapValue (v : CapValue) : List Nat :=
  v.code % 256 :: (encodeCapData v).length % 256 :: encodeCapData v

/-- `Capabilities::to_bytes`. -/
def encodeCapabilities (caps : Capabilities) : List Nat :=
  (caps.map encodeCapValue).flatten

/-- The per-value length used by `Capabilities::encoded_len`. -/
def capValueDataLen : CapValue → Nat
  | .multiProtocol _ _ => 4
  | .routeRefresh => 0
  | .extendedNextHop vals => vals.length * 6
  | .extendedMessage => 0
  | .fourOctetAsNumber _ => 4
  | .unsupported _ d => d.length

/-- `Capabilities::encoded_len`. -/
def capsEncodedLen (caps : Capabilities) : Nat :=
  (caps.map fun v => capValueDataLen v + 2).sum

/-- `ExtendedNextHop::from_bytes`: triples of `u16` until the buffer is
exhausted. -/
def parseEnhList : List Nat → Except BgpError (List EnhVal)
  | [] => .ok []
  | a0 :: a1 :: rest =>
    match parseAfiE "ExtendedNextHop AFI" (a0 * 256 + a1) with
    | .error e => .error e
    | .ok afi =>
      match rest with
      | s0 :: s1 :: rest2 =>
        match parseSafiE "ExtendedNextHop SAFI" (s0 * 256 + s1) with
        | .error e => .error e
        | .ok safi =>
          match rest2 with
          | n0 :: n1 :: rest3 =>
            match parseAfiE "ExtendedNextHop NextHop AFI" (n0 * 256 + n1) with
            | .error e => .error e
            | .ok nhAfi =>
              match parseEnhList rest3 with
              | .ok vs => .ok (⟨afi, safi, nhAfi⟩ :: vs)
              | .error e => .error e
          | _ => .error (.panic "get_u16")
      | _ => .error (.panic "get_u16")
  | _ => .error (.panic "get_u16")

/-- `MultiProtocol::from_bytes`: AFI `u16`, a reserved byte, SAFI byte. -/
def parseMultiProtocol (src : List Nat) : Except BgpError (Afi × Safi) :=
  match r16 src with
  | .error e => .error e
  | .ok (a, s1) =>
    match parseAfiE "MultiProtocol AFI" a with
    | .error e => .error e
    | .ok afi =>
      match s1 with
      | _reserved :: sb :: _ =>
        match parseSafiE "MultiProtocol SAFI" sb with
        | .error e => .error e
        | .ok safi => .ok (afi, safi)
      | _ => .error (.panic "get_u8")

/-- One iteration of the `Capabilities::from_bytes` loop: code byte,
length byte, split-off value, dispatch on the code. -/
def parseCapValue : List Nat → Except BgpError (CapValue × List Nat)
  | code :: len :: rest =>
    if len ≤ rest.length then
      let sub := rest.take len
      let rem := rest.drop len
      if code = 1 then
        match parseMultiProtocol sub with
        | .ok (a, s) => .ok (.multiProtocol a s, rem)
        | .error e => .error e
      else if code = 2 then .ok (.routeRefresh, rem)
      else if code = 5 then
        match parseEnhList sub with
        | .ok vs => .ok (.extendedNextHop vs, rem)
        | .error e => .error e
      else if code = 6 then .ok (.extendedMessage, rem)
      else if code = 65 then
        match r32 sub with
        | .ok (asn, _) => .ok (.fourOctetAsNumber asn, rem)
        | .error e => .error e
      else .ok (.unsupported code sub, rem)
    else .error (.panic "split_to")
  | _ => .error (.panic "get_u8")

theorem parseCapValue_leftover {src : List Nat} {v : CapValue}
    {rem : List Nat} (h : parseCapValue src = .ok (v, rem)) :
    rem.length < src.length := by
  match src, h with
  | code :: len :: rest, h =>
    rw [parseCapValue] at h
    by_cases hl : len ≤ rest.length
    · rw [if_pos hl] at h
      simp only at h
      have hrem : ∀ w : CapValue, (w, rest.drop len) = (v, rem) →
          rem.length < (code :: len :: rest).length := by
        intro w hw
        cases hw
        simp only [List.length_cons, List.length_drop]
        omega
      by_cases h1 : code = 1
      · rw [if_pos h1] at h
        cases hm : parseMultiProtocol (rest.take len) with
        | ok p =>
          rw [hm] at h
          cases h
          simp only [List.length_cons, List.length_drop]
          omega
        | error e =>
          rw [hm] at h
          cases h
      · rw [if_neg h1] at h
        by_cases h2 : code = 2
        · rw [if_pos h2] at h
          cases h
          simp only [List.length_cons, List.length_drop]
          omega
        · rw [if_neg h2] at h
          by_cases h5 : code = 5
          · rw [if_pos h5] at h
            cases hm : parseEnhList (rest.take len) with
            | ok vs =>
              rw [hm] at h
              cases h
              simp only [List.length_cons, List.length_drop]
              omega
            | error e =>
              rw [hm] at h
              cases h
          · rw [if_neg h5] at h
            by_cases h6 : code = 6
            · rw [if_pos h6] at h
              cases h
              simp only [List.length_cons, List.length_drop]
              omega
            · rw [if_neg h6] at h
              by_cases h65 : code = 65
              · rw [if_pos h65] at h
                cases hm : r32 (rest.take len) with
                | ok p =>
                  rw [hm] at h
                  cases h
                  simp only [List.length_cons, List.length_drop]
                  omega
                | error e =>
                  rw [hm] at h
                  cases h
              · rw [if_neg h65] at h
                cases h
                simp only [List.length_cons, List.length_drop]
                omega
    · rw [if_neg hl] at h
      cases h

/-- `Capabilities::from_bytes`: parse capability TLVs until the buffer is
exhausted. -/
def parseCapabilities : List Nat → Except BgpError Capabilities
  | [] => .ok []
  | a :: l =>
    match h : parseCapValue (a :: l) with
    | .ok (v, rem) =>
      match parseCapabilities rem with
      | .ok vs => .ok (v :: vs)
      | .error e => .error e
    | .error e => .error e
termination_by src => src.length
decreasing_by exact parseCapValue_leftover h

@[simp] theorem parseCapabilities_nil : parseCapabilities [] = .ok [] := by
  rw [parseCapabilities]

/-- The capability codes understood by `Capabilities::from_bytes`. -/
def knownCapCodes : List Nat := [1, 2, 5, 6, 65]

/-- A capability value the codec can reproduce: the value bytes fit the
one-byte length field and an `Unsupported` arm does not reuse a known
code. -/
def wfCapValue : CapValue → Bool
  | .multiProtocol _ _ => true
  | .routeRefresh => true
  | .extendedNextHop vals => decide (vals.length * 6 < 256)
  | .extendedMessage => true
  | .fourOctetAsNumber asn => decide (asn < 4294967296)
  | .unsupported c d =>
    decide (c < 256) && decide (c ∉ knownCapCodes) &&
      decide (d.length < 256) && d.all fun b => decide (b < 256)

def wfCapabilities (caps : Capabilities) : Bool := caps.all wfCapValue

theorem encodeCapData_length (v : CapValue) :
    (encodeCapData v).length = capValueDataLen v := by
  cases v with
  | extendedNextHop vals =>
    simp only [encodeCapData, capValueDataLen, encodeEnh]
    induction vals with
    | nil => rfl
    | cons x xs ih =>
      simp only [List.map_cons, List.flatten_cons, List.length_append,
        List.length_cons, w16_length, ih]
      omega
  | multiProtocol afi safi => rfl
  | routeRefresh => rfl
  | extendedMessage => rfl
  | fourOctetAsNumber asn => rfl
  | unsupported c d => rfl

theorem encodeCapabilities_length (caps : Capabilities) :
    (encodeCapabilities caps).length = capsEncodedLen caps := by
  induction caps with
  | nil => rfl
  | cons v caps ih =>
    simp only [encodeCapabilities, capsEncodedLen, List.map_cons,
      List.flatten_cons, List.length_append, List.sum_cons] at *
    rw [ih, encodeCapValue]
    simp only [List.length_cons, encodeCapData_length]
    try omega

theorem parseEnhList_encode (vals : List EnhVal) :
    parseEnhList (encodeEnh vals) = .ok vals := by
  induction vals with
  | nil => rfl
  | cons x xs ih =>
    obtain ⟨afi, safi, nhAfi⟩ := x
    have ha := afiToNat_lt afi
    have hs : safi.toNat < 65536 := by
      have := safiToNat_lt safi
      omega
    have hn := afiToNat_lt nhAfi
    have e1 : afi.toNat / 256 % 256 * 256 + afi.toNat % 256 = afi.toNat := by
      omega
    have e2 : safi.toNat / 256 % 256 * 256 + safi.toNat % 256 = safi.toNat := by
      omega
    have e3 : nhAfi.toNat / 256 % 256 * 256 + nhAfi.toNat % 256 = nhAfi.toNat := by
      omega
    have ea : w16 afi.toNat = [afi.toNat / 256 % 256, afi.toNat % 256] := rfl
    have es : w16 safi.toNat = [safi.toNat / 256 % 256, safi.toNat % 256] := rfl
    have en : w16 nhAfi.toNat = [nhAfi.toNat / 256 % 256, nhAfi.toNat % 256] := rfl
    have hstep : encodeEnh (⟨afi, safi, nhAfi⟩ :: xs) =
        w16 afi.toNat ++ (w16 safi.toNat ++ (w16 nhAfi.toNat ++ encodeEnh xs)) := by
      simp [encodeEnh, List.append_assoc]
    rw [hstep, ea, es, en]
    simp only [List.cons_append, List.nil_append]
    rw [parseEnhList]
    simp only [e1, parseAfiE_toNat, e2, parseSafiE_toNat, e3, ih]

theorem parseMultiProtocol_encode (afi : Afi) (safi : Safi) :
    parseMultiProtocol (encodeCapData (.multiProtocol afi safi)) =
      .ok (afi, safi) := by
  rw [parseMultiProtocol, encodeCapData]
  rw [r16_w16 _ _ (afiToNat_lt afi)]
  simp only [parseAfiE_toNat]
  rw [Nat.mod_eq_of_lt (safiToNat_lt safi)]
  simp only [parseSafiE_toNat]

theorem parseCapValue_encode (v : CapValue) (h : wfCapValue v = true)
    (rest : List Nat) :
    parseCapValue (encodeCapValue v ++ rest) = .ok (v, rest) := by
  have hdl : (encodeCapData v).length = capValueDataLen v :=
    encodeCapData_length v
  have hlen : capValueDataLen v < 256 := by
    cases v with
    | multiProtocol afi safi => norm_num [capValueDataLen]
    | routeRefresh => norm_num [capValueDataLen]
    | extendedNextHop vals =>
      simpa [wfCapValue, capValueDataLen, Nat.mul_comm] using h
    | extendedMessage => norm_num [capValueDataLen]
    | fourOctetAsNumber asn => norm_num [capValueDataLen]
    | unsupported c d =>
      simp only [wfCapValue, Bool.and_eq_true, decide_eq_true_eq] at h
      simpa [capValueDataLen] using h.1.2
  have hcode : v.code % 256 = v.code := by
    cases v with
    | unsupported c d =>
      simp only [wfCapValue, Bool.and_eq_true, decide_eq_true_eq] at h
      exact Nat.mod_eq_of_lt h.1.1.1
    | multiProtocol afi safi => rfl
    | routeRefresh => rfl
    | extendedNextHop vals => rfl
    | extendedMessage => rfl
    | fourOctetAsNumber asn => rfl
  rw [encodeCapValue]
  simp only [List.cons_append, hcode, hdl, Nat.mod_eq_of_lt hlen]
  rw [parseCapValue]
  rw [if_pos (by simp only [List.length_append, hdl]; omega)]
  simp only
  have htake : (encodeCapData v ++ rest).take (capValueDataLen v) =
      encodeCapData v := by
    rw [← hdl]
    exact List.take_left _ _
  have hdrop : (encodeCapData v ++ rest).drop (capValueDataLen v) = rest := by
    rw [← hdl]
    exact List.drop_left _ _
  cases v with
  | multiProtocol afi safi =>
    simp only [CapValue.code]
    simp [htake, hdrop, parseMultiProtocol_encode]
  | routeRefresh =>
    simp only [CapValue.code]
    simp [hdrop]
  | extendedNextHop vals =>
    simp only [CapValue.code]
    have hp : parseEnhList (encodeCapData (.extendedNextHop vals)) =
        .ok vals := parseEnhList_encode vals
    simp [htake, hdrop, hp]
  | extendedMessage =>
    simp only [CapValue.code]
    simp [hdrop]
  | fourOctetAsNumber asn =>
    simp only [wfCapValue, decide_eq_true_eq] at h
    simp only [CapValue.code]
    have h32 := r32_w32 asn [] h
    rw [List.append_nil] at h32
    have h32e : r32 (encodeCapData (.fourOctetAsNumber asn)) =
        .ok (asn, []) := h32
    simp [htake, hdrop, h32e]
  | unsupported c d =>
    simp only [wfCapValue, Bool.and_eq_true, decide_eq_true_eq] at h
    have hc := h.1.1.2
    simp only [knownCapCodes, List.mem_cons, List.mem_singleton,
      List.not_mem_nil, not_or] at hc
    simp only [CapValue.code]
    simp [hc.1, hc.2.1, hc.2.2.1, hc.2.2.2.1, hc.2.2.2.2.1, htake, hdrop]
    rfl

theorem parseCapabilities_cons_of (bs : List Nat) (v : CapValue)
    (rem : List Nat) (hne : bs ≠ []) (h : parseCapValue bs = .ok (v, rem)) :
    parseCapabilities bs =
      match parseCapabilities rem with
      | .ok vs => .ok (v :: vs)
      | .error e => .error e := by
  match bs, hne with
  | a :: l, _ =>
    rw [parseCapabilities, h]

theorem parseCapabilities_encode (caps : Capabilities)
    (h : wfCapabilities caps = true) :
    parseCapabilities (encodeCapabilities caps) = .ok caps := by
  induction caps with
  | nil => simp [encodeCapabilities]
  | cons v caps ih =>
    simp only [wfCapabilities, List.all_cons, Bool.and_eq_true] at h
    have henc : encodeCapabilities (v :: caps) =
        encodeCapValue v ++ encodeCapabilities caps := by
      simp [encodeCapabilities]
    rw [henc]
    rw [parseCapabilities_cons_of _ v (encodeCapabilities caps)
      (by simp [encodeCapValue]) (parseCapValue_encode v h.1 _)]
    rw [ih (by simpa [wfCapabilities] using h.2)]

/-! ### Optional parameters (`src/bgp/capability.rs`) -/

/-- `OptionalParameterValue`: the only understood parameter type is 2
(Capabilities). -/
inductive OptParamValue where
  | capabilities (caps : Capabilities) : OptParamValue
deriving DecidableEq

/-- `OptionalParameters`. -/
abbrev OptionalParameters := List OptParamValue

/-- `OptionalParameterValue::to_bytes`: type 2, length byte, capability
bytes. -/
def encodeOptParamValue : OptParamValue → List Nat
  | .capabilities caps =>
    2 :: (encodeCapabilities caps).length % 256 :: encodeCapabilities caps

/-- The TLV sequence written by `OptionalParameters::to_bytes` after the
length byte. -/
def optParamsBody (ps : OptionalParameters) : List Nat :=
  (ps.map encodeOptParamValue).flatten

/-- `OptionalParameters::to_bytes`: one length byte, then the TLVs. -/
def encodeOptionalParameters (ps : OptionalParameters) : List Nat :=
  (optParamsBody ps).length % 256 :: optParamsBody ps

/-- `OptionalParameterValue::encoded_len`. -/
def optParamValueEncodedLen : OptParamValue → Nat
  | .capabilities caps => capsEncodedLen caps + 2

/-- `OptionalParameters::encoded_len`. -/
def optParamsEncodedLen (ps : OptionalParameters) : Nat :=
  (ps.map optParamValueEncodedLen).sum + 1

/-- `OptionalParameterValue::from_bytes`: parameter type and length bytes,
then `check_remaining_len!` compares the length against **all** remaining
bytes before dispatching on the type; type 2 hands the whole rest to
`Capabilities::from_bytes`. -/
def parseOptParamValue : List Nat → Except BgpError (OptParamValue × List Nat)
  | pt :: pl :: rest =>
    match compare rest.length pl with
    | .eq =>
      if pt = 2 then
        match parseCapabilities rest with
        | .ok caps => .ok (.capabilities caps, [])
        | .error e => .error e
      else .error (.internalType "optional parameter" pt)
    | c => .error (.internalLength "optional parameter" c)
  | _ => .error (.panic "get_u8")

theorem parseOptParamValue_leftover {src : List Nat} {v : OptParamValue}
    {rem : List Nat} (h : parseOptParamValue src = .ok (v, rem)) :
    rem.length < src.length := by
  match src, h with
  | pt :: pl :: rest, h =>
    rw [parseOptParamValue] at h
    cases hcmp : compare rest.length pl with
    | eq =>
      rw [hcmp] at h
      by_cases h2 : pt = 2
      · rw [if_pos h2] at h
        cases hc : parseCapabilities rest with
        | ok caps =>
          rw [hc] at h
          cases h
          simp
        | error e =>
          rw [hc] at h
          cases h
      · rw [if_neg h2] at h
        cases h
    | lt =>
      rw [hcmp] at h
      cases h
    | gt =>
      rw [hcmp] at h
      cases h

/-- The `while src.has_remaining()` loop of
`OptionalParameters::from_bytes`. -/
def parseOptParamsLoop : List Nat → Except BgpError OptionalParameters
  | [] => .ok []
  | a :: l =>
    match h : parseOptParamValue (a :: l) with
    | .ok (v, rem) =>
      match parseOptParamsLoop rem with
      | .ok vs => .ok (v :: vs)
      | .error e => .error e
    | .error e => .error e
termination_by src => src.length
decreasing_by exact parseOptParamValue_leftover h

@[simp] theorem parseOptParamsLoop_nil : parseOptParamsLoop [] = .ok [] := by
  rw [parseOptParamsLoop]

/-- `OptionalParameters::from_bytes`: the one-byte total length, the
`check_remaining_len!` comparison, then the TLV loop. -/
def parseOptionalParameters (src : List Nat) :
    Except BgpError OptionalParameters :=
  match src with
  | [] => .error (.panic "get_u8")
  | len :: rest =>
    match compare rest.length len with
    | .eq => parseOptParamsLoop rest
    | c => .error (.internalLength "optional parameter length" c)

/-- Representation invariant: well-formed capabilities whose encoding fits
the one-byte TLV length. -/
def wfOptParamValue : OptParamValue → Bool
  | .capabilities caps =>
    wfCapabilities caps && decide ((encodeCapabilities caps).length < 256)

/-- Representation invariant of an optional-parameter list: at most one
TLV (the decoder rejects longer sequences), well-formed TLVs, and a total
body that fits the one-byte length field. -/
def wfOptionalParameters (ps : OptionalParameters) : Bool :=
  decide (ps.length ≤ 1) && ps.all wfOptParamValue &&
    decide ((optParamsBody ps).length < 256)

theorem parseOptionalParameters_encode (ps : OptionalParameters)
    (h : wfOptionalParameters ps = true) :
    parseOptionalParameters (encodeOptionalParameters ps) = .ok ps := by
  simp only [wfOptionalParameters, Bool.and_eq_true, decide_eq_true_eq] at h
  obtain ⟨⟨h1, h2⟩, h3⟩ := h
  rw [encodeOptionalParameters, parseOptionalParameters]
  rw [Nat.mod_eq_of_lt h3]
  rw [show compare (optParamsBody ps).length (optParamsBody ps).length =
    Ordering.eq from by simp [Nat.compare_eq_eq]]
  match ps, h1 with
  | [], _ => simp [optParamsBody]
  | [.capabilities caps], _ =>
    have hwf : wfOptParamValue (.capabilities caps) = true := by
      simpa [List.all_cons] using h2
    simp only [wfOptParamValue, Bool.and_eq_true, decide_eq_true_eq] at hwf
    have hbody : optParamsBody [.capabilities caps] =
        2 :: (encodeCapabilities caps).length % 256 ::
          encodeCapabilities caps := by
      simp [optParamsBody, encodeOptParamValue]
    rw [hbody]
    rw [parseOptParamsLoop]
    rw [show parseOptParamValue (2 :: (encodeCapabilities caps).length % 256 ::
        encodeCapabilities caps) =
      .ok (.capabilities caps, []) from by
        rw [parseOptParamValue]
        rw [Nat.mod_eq_of_lt hwf.2]
        rw [show compare (encodeCapabilities caps).length
            (encodeCapabilities caps).length = Ordering.eq from by
          simp [Nat.compare_eq_eq]]
        rw [if_pos rfl]
        rw [parseCapabilities_encode caps hwf.1]]
    simp

/-! ### Messages (`pabgp/lib.rs`) and the codec (`src/bgp/endec.rs`) -/

/-- `Open` from `pabgp/lib.rs` (the `bgp_id` is the `u32` value of the
IPv4 address). -/
structure OpenMsg where
  version : Nat
  asn : Nat
  hold_time : Nat
  bgp_id : Nat
  opt_params : OptionalParameters
deriving DecidableEq

/-- `Open::to_bytes`. -/
def encodeOpen (o : OpenMsg) : List Nat :=
  o.version % 256 ::
    (w16 o.asn ++ w16 o.hold_time ++ w32 o.bgp_id ++
      encodeOptionalParameters o.opt_params)

/-- `Open::from_bytes`. -/
def parseOpen : List Nat → Except BgpError OpenMsg
  | v :: rest =>
    match r16 rest with
    | .error e => .error e
    | .ok (asn, s1) =>
      match r16 s1 with
      | .error e => .error e
      | .ok (hold, s2) =>
        match r32 s2 with
        | .error e => .error e
        | .ok (bgpId, s3) =>
          match parseOptionalParameters s3 with
          | .ok ps => .ok ⟨v, asn, hold, bgpId, ps⟩
          | .error e => .error e
  | [] => .error (.panic "get_u8")

/-- `Update` from `pabgp/lib.rs`. -/
structure UpdateMsg where
  withdrawn_routes : Routes
  path_attributes : PathAttributes
  nlri : Routes
deriving DecidableEq

/-- `Update::to_bytes`: two-byte withdrawn length, withdrawn routes,
two-byte total-path-attribute length, attributes, then the NLRI. -/
def encodeUpdate (u : UpdateMsg) : List Nat :=
  w16 (encodeRoutes u.withdrawn_routes).length ++
    encodeRoutes u.withdrawn_routes ++
    w16 (encodePathAttributes u.path_attributes).length ++
    encodePathAttributes u.path_attributes ++
    encodeRoutes u.nlri

/-- `Update::from_bytes`. -/
def parseUpdate (src : List Nat) : Except BgpError UpdateMsg :=
  match r16 src with
  | .error e => .error e
  | .ok (wl, s1) =>
    if wl ≤ s1.length then
      match parseRoutes (s1.take wl) with
      | .error e => .error e
      | .ok wdr =>
        match r16 (s1.drop wl) with
        | .error e => .error e
        | .ok (tl, s2) =>
          if tl ≤ s2.length then
            match parsePathAttributes (s2.take tl) with
            | .error e => .error e
            | .ok pa =>
              match parseRoutes (s2.drop tl) with
              | .error e => .error e
              | .ok nlri => .ok ⟨wdr, pa, nlri⟩
          else .error (.panic "split_to")
    else .error (.panic "split_to")

/-- `Update::encoded_len`. -/
def updateEncodedLen (u : UpdateMsg) : Nat :=
  2 + sliceEncodedLen u.withdrawn_routes + 2 +
    pathAttrsEncodedLen u.path_attributes + sliceEncodedLen u.nlri

/-- `NotificationErrorCode` (`repr(u8)` 1–6). -/
inductive NotifCode where
  | messageHeaderError : NotifCode
  | openMessageError : NotifCode
  | updateMessageError : NotifCode
  | holdTimerExpired : NotifCode
  | finiteStateMachineError : NotifCode
  | cease : NotifCode
deriving DecidableEq

def NotifCode.toNat : NotifCode → Nat
  | .messageHeaderError => 1
  | .openMessageError => 2
  | .updateMessageError => 3
  | .holdTimerExpired => 4
  | .finiteStateMachineError => 5
  | .cease => 6

/-- `NotificationErrorCode::from_u8`. -/
def notifCodeFromNat (n : Nat) : Option NotifCode :=
  if n = 1 then some .messageHeaderError
  else if n = 2 then some .openMessageError
  else if n = 3 then some .updateMessageError
  else if n = 4 then some .holdTimerExpired
  else if n = 5 then some .finiteStateMachineError
  else if n = 6 then some .cease
  else none

theorem notifCodeFromNat_toNat (c : NotifCode) :
    notifCodeFromNat c.toNat = some c := by
  cases c <;> rfl

/-- `Notification` from `pabgp/lib.rs`. -/
structure NotificationMsg where
  error_code : NotifCode
  error_subcode : Nat
  data : List Nat
deriving DecidableEq

/-- `Notification::to_bytes`. -/
def encodeNotification (n : NotificationMsg) : List Nat :=
  n.error_code.toNat :: n.error_subcode % 256 :: n.data

/-- `Notification::from_bytes`: code byte (checked against the enum),
subcode byte, data to the end of the buffer. -/
def parseNotification : List Nat → Except BgpError NotificationMsg
  | c :: sc :: rest =>
    match notifCodeFromNat c with
    | some code => .ok ⟨code, sc, rest⟩
    | none => .error (.internalType "error_code" c)
  | _ => .error (.panic "get_u8")

/-- `Message` from `pabgp/lib.rs`. -/
inductive Message where
  | openM (o : OpenMsg) : Message
  | updateM (u : UpdateMsg) : Message
  | notificationM (n : NotificationMsg) : Message
  | keepalive : Message
deriving DecidableEq

/-- `MessageType` wire values. -/
def msgTypeByte : Message → Nat
  | .openM _ => 1
  | .updateM _ => 2
  | .notificationM _ => 3
  | .keepalive => 4

/-- The body bytes written by `BgpCodec::encode` after the type byte. -/
def msgBody : Message → List Nat
  | .openM o => encodeOpen o
  | .updateM u => encodeUpdate u
  | .notificationM n => encodeNotification n
  | .keepalive => []

/-- `BgpCodec::encode`: 16-byte marker, the total length
(body + 19 bytes) as a big-endian `u16`, the type byte, then the body. -/
def encodeMessage (m : Message) : List Nat :=
  List.replicate 16 255 ++ w16 (19 + (msgBody m).length) ++
    (msgTypeByte m :: msgBody m)

/-- `BgpCodec::decode`: return `none` while fewer than 18 bytes or fewer
than `length` bytes are buffered; verify the marker; split off
`length - 19` payload bytes and dispatch on the type byte.  The
`buf.has_remaining()` check after dispatch only bites for KEEPALIVE here
because the embedded body parsers consume their whole buffer, as the
source ones do. -/
def decodeMessage : List Nat → Except BgpError (Option (Message × List Nat))
  | b0 :: b1 :: b2 :: b3 :: b4 :: b5 :: b6 :: b7 :: b8 :: b9 :: b10 :: b11 ::
      b12 :: b13 :: b14 :: b15 :: l0 :: l1 :: rest =>
    let length := l0 * 256 + l1
    if 18 + rest.length < length then .ok none
    else if [b0, b1, b2, b3, b4, b5, b6, b7, b8, b9, b10, b11, b12, b13, b14,
        b15] ≠ List.replicate 16 255 then .error .marker
    else if length < 19 then .error (.panic "length below header size")
    else
      match rest with
      | [] => .error (.panic "get_u8")
      | t :: rest2 =>
        let body := rest2.take (length - 19)
        let after := rest2.drop (length - 19)
        if t = 1 then
          match parseOpen body with
          | .ok o => .ok (some (.openM o, after))
          | .error e => .error e
        else if t = 2 then
          match parseUpdate body with
          | .ok u => .ok (some (.updateM u, after))
          | .error e => .error e
        else if t = 3 then
          match parseNotification body with
          | .ok n => .ok (some (.notificationM n, after))
          | .error e => .error e
        else if t = 4 then
          if body = [] then .ok (some (.keepalive, after))
          else .error (.internalLength "message" .gt)
        else .error (.messageType t)
  | _ => .ok none

/-! ### Message-level representation invariants and round trips -/

def wfOpen (o : OpenMsg) : Bool :=
  decide (o.version < 256) && decide (o.asn < 65536) &&
    decide (o.hold_time < 65536) && decide (o.bgp_id < 4294967296) &&
    wfOptionalParameters o.opt_params

def wfUpdate (u : UpdateMsg) : Bool :=
  wfRoutes u.withdrawn_routes &&
    decide ((encodeRoutes u.withdrawn_routes).length < 65536) &&
    wfPathAttrs u.path_attributes &&
    decide ((encodePathAttributes u.path_attributes).length < 65536) &&
    wfRoutes u.nlri

def wfNotification (n : NotificationMsg) : Bool :=
  decide (n.error_subcode < 256)

/-- A message the codec can reproduce: well-formed body and a total
encoded size that fits the `u16` length field. -/
def wfMessage (m : Message) : Bool :=
  (match m with
   | .openM o => wfOpen o
   | .updateM u => wfUpdate u
   | .notificationM n => wfNotification n
   | .keepalive => true) &&
    decide (19 + (msgBody m).length < 65536)

theorem parseOpen_encode (o : OpenMsg) (h : wfOpen o = true) :
    parseOpen (encodeOpen o) = .ok o := by
  obtain ⟨ver, asn, hold, bgpId, ps⟩ := o
  simp only [wfOpen, Bool.and_eq_true, decide_eq_true_eq] at h
  obtain ⟨⟨⟨⟨hv, ha⟩, hh⟩, hi⟩, hp⟩ := h
  simp only [encodeOpen, List.append_assoc]
  rw [parseOpen]
  simp only [Nat.mod_eq_of_lt hv, r16_w16 _ _ ha, r16_w16 _ _ hh,
    r32_w32 _ _ hi, parseOptionalParameters_encode _ hp]

theorem parseUpdate_encode (u : UpdateMsg) (h : wfUpdate u = true) :
    parseUpdate (encodeUpdate u) = .ok u := by
  obtain ⟨wdr, pa, nlri⟩ := u
  simp only [wfUpdate, Bool.and_eq_true, decide_eq_true_eq] at h
  obtain ⟨⟨⟨⟨hw, hwl⟩, hp⟩, hpl⟩, hn⟩ := h
  simp only [encodeUpdate, List.append_assoc]
  rw [parseUpdate]
  simp only [r16_w16 _ _ hwl]
  rw [if_pos (by simp only [List.length_append]; omega)]
  rw [List.take_left, List.drop_left]
  simp only [parseRoutes_encode _ hw, r16_w16 _ _ hpl]
  rw [if_pos (by simp only [List.length_append]; omega)]
  rw [List.take_left, List.drop_left]
  simp only [parsePathAttributes_encode _ hp, parseRoutes_encode _ hn]

theorem parseNotification_encode (n : NotificationMsg)
    (h : wfNotification n = true) :
    parseNotification (encodeNotification n) = .ok n := by
  obtain ⟨code, sc, data⟩ := n
  simp only [wfNotification, decide_eq_true_eq] at h
  simp only [encodeNotification]
  rw [parseNotification]
  simp only [Nat.mod_eq_of_lt h, notifCodeFromNat_toNat]

theorem decodeMessage_encode (m : Message) (h : wfMessage m = true) :
    decodeMessage (encodeMessage m) = .ok (some (m, [])) := by
  simp only [wfMessage, Bool.and_eq_true, decide_eq_true_eq] at h
  obtain ⟨hbody, hlen⟩ := h
  have hl0 : (19 + (msgBody m).length) / 256 % 256 * 256 +
      (19 + (msgBody m).length) % 256 = 19 + (msgBody m).length := by
    omega
  have hshape : encodeMessage m =
      255 :: 255 :: 255 :: 255 :: 255 :: 255 :: 255 :: 255 :: 255 :: 255 ::
      255 :: 255 :: 255 :: 255 :: 255 :: 255 ::
      (19 + (msgBody m).length) / 256 % 256 ::
      (19 + (msgBody m).length) % 256 ::
      msgTypeByte m :: msgBody m := by
    simp [encodeMessage, w16, List.replicate]
  rw [hshape, decodeMessage]
  simp only [hl0]
  rw [if_neg (by simp only [List.length_cons]; omega)]
  rw [if_neg (by simp [List.replicate])]
  rw [if_neg (by omega)]
  have htl : 19 + (msgBody m).length - 19 = (msgBody m).length := by omega
  simp only [htl, List.take_length, List.drop_length]
  cases m with
  | openM o =>
    simp only [msgTypeByte, msgBody]
    simp [parseOpen_encode o hbody]
  | updateM u =>
    simp only [msgTypeByte, msgBody]
    simp [parseUpdate_encode u hbody]
  | notificationM n =>
    simp only [msgTypeByte, msgBody]
    simp [parseNotification_encode n hbody]
  | keepalive =>
    simp only [msgTypeByte, msgBody]
    simp

/-! ### Route-set splitting (`src/bgp/route.rs`) -/

/-- The inner `while encoded_len > allowed_size` loop of
`split_routes_to_allowed_size_each`: halve `to_keep` until the candidate
slice fits, or fail (`None` models the `return Vec::new()`). -/
def fitKeep (allowed : Nat) (routes : List RouteVal) (len start : Nat) :
    Nat → Option Nat
  | to_keep =>
    let e := min len (start + to_keep)
    if sliceEncodedLen ((routes.drop start).take (e - start)) ≤ allowed then
      some to_keep
    else
      let t := to_keep / 2
      if t = 0 then none
      else fitKeep allowed routes len start t
termination_by to_keep => to_keep
decreasing_by omega

theorem fitKeep_pos {allowed : Nat} {routes : List RouteVal}
    {len start : Nat} :
    ∀ {to_keep t : Nat}, 1 ≤ to_keep →
      fitKeep allowed routes len start to_keep = some t → 1 ≤ t := by
  intro to_keep
  induction to_keep using Nat.strong_induction_on with
  | _ to_keep ih =>
    intro t h1 h
    rw [fitKeep] at h
    by_cases hfit : sliceEncodedLen ((routes.drop start).take
        (min len (start + to_keep) - start)) ≤ allowed
    · rw [if_pos hfit] at h
      cases h
      exact h1
    · rw [if_neg hfit] at h
      by_cases h0 : to_keep / 2 = 0
      · rw [if_pos h0] at h
        cases h
      · rw [if_neg h0] at h
        exact ih (to_keep / 2) (by omega) (by omega) h

/-- The outer `while start < self.len()` loop of
`split_routes_to_allowed_size_each`.  The `t = 0` guard is dead code
(`fitKeep` preserves positivity, see `fitKeep_pos`) and only makes the
recursion on `routes.length - start` structural. -/
def splitGo (allowed : Nat) (routes : List RouteVal) (start to_keep : Nat) :
    Option (List Nat) :=
  if hlt : start < routes.length then
    match fitKeep allowed routes routes.length start to_keep with
    | none => none
    | some t =>
      if ht : t = 0 then none
      else
        match splitGo allowed routes (start + t) t with
        | some ps => some (min routes.length (start + t) :: ps)
        | none => none
  else some []
termination_by routes.length - start
decreasing_by omega

/-- `Routes::split_routes_to_allowed_size_each`: right boundaries of the
chunks; the empty list doubles as the failure value, as in the source. -/
def splitRoutesEach (rs : Routes) (allowed : Nat) : List Nat :=
  if 1 ≤ rs.length then (splitGo allowed rs 0 rs.length).getD []
  else []

/-- `Routes::split_routes_to_allowed_size_rev`: drop the last boundary,
reverse, and append 0. -/
def splitRoutesRev (rs : Routes) (allowed : Nat) : List Nat :=
  (splitRoutesEach rs allowed).dropLast.reverse ++ [0]

theorem splitRoutesEach_nil (allowed : Nat) : splitRoutesEach [] allowed = [] := by
  simp [splitRoutesEach]

theorem splitRoutesRev_nil (allowed : Nat) : splitRoutesRev [] allowed = [0] := by
  simp [splitRoutesRev, splitRoutesEach_nil]

/-- If the whole route list fits, one chunk covering everything is
emitted. -/
theorem splitRoutesEach_single (rs : Routes) (allowed : Nat)
    (hne : 1 ≤ rs.length) (hfit : sliceEncodedLen rs ≤ allowed) :
    splitRoutesEach rs allowed = [rs.length] := by
  rw [splitRoutesEach, if_pos hne]
  have hf : fitKeep allowed rs rs.length 0 rs.length = some rs.length := by
    rw [fitKeep]
    simp only [Nat.zero_add, Nat.min_self, Nat.sub_zero, List.drop_zero,
      List.take_length]
    rw [if_pos hfit]
  rw [splitGo, dif_pos (by omega)]
  rw [hf]
  simp only
  rw [dif_neg (by omega)]
  rw [splitGo, dif_neg (by omega)]
  simp

/-- On failure the `_rev` variant still yields `[0]`, so the whole list is
packed into a single chunk by the builder loops. -/
theorem splitRoutesRev_single (rs : Routes) (allowed : Nat)
    (hne : 1 ≤ rs.length) (hfit : sliceEncodedLen rs ≤ allowed) :
    splitRoutesRev rs allowed = [0] := by
  rw [splitRoutesRev, splitRoutesEach_single rs allowed hne hfit]
  simp

/-! ### The UPDATE builder (`src/bgp/update_builder.rs`) -/

/-- `UpdateBuilder`. -/
structure UpdateBuilder where
  withdrawn_ipv4_routes : Routes
  withdrawn_ipv6_routes : Routes
  nlri_ipv4_routes : Routes
  nlri_ipv6_routes : Routes
  origin : Option Origin
  as_path : List AsSegment
  next_hop : Option MpNextHop
  other_path_attrs : PathAttributes
  enable_mp_bgp : Bool
deriving DecidableEq

/-- `UpdateBuilder::check_next_hop`: with a next hop, MP-BGP passes it
through and plain BGP-4 accepts only an IPv4 single next hop (pushed as a
NEXT_HOP attribute); without one, only a non-empty IPv6 NLRI or IPv6
withdrawn list raises `NoNextHop`. -/
def checkNextHop (b : UpdateBuilder) : Except BgpError UpdateBuilder :=
  match b.next_hop with
  | some nh =>
    if b.enable_mp_bgp then .ok b
    else
      match nh with
      | .single (.v4 a) =>
        .ok { b with other_path_attrs :=
          b.other_path_attrs ++ [⟨wellKnownComplete, .nextHop a⟩] }
      | _ => .error .noMpBgp
  | none =>
    if b.nlri_ipv6_routes ≠ [] ∨ b.withdrawn_ipv6_routes ≠ [] then
      .error .noNextHop
    else .ok b

/-- `UpdateBuilder::make_mp_unreach_nlri`. -/
def mkMpUnreachAttr (routes : Routes) (afi : Afi) : PathAttr :=
  ⟨optionalTransitiveExtended, .mpUnreachNlri ⟨afi, .unicast, routes⟩⟩

/-- `UpdateBuilder::make_mp_reach_nlri`. -/
def mkMpReachAttr (routes : Routes) (afi : Afi) (nh : MpNextHop) : PathAttr :=
  ⟨optionalTransitiveExtended, .mpReachNlri ⟨afi, .unicast, nh, routes⟩⟩

/-- The `for end in route_splits` loop of `make_mp_unreach_update`:
`split_off(end)` takes the tail from `end` and leaves the front. -/
def mkMpUnreachGo (common : PathAttributes) (afi : Afi) :
    List Nat → Routes → List UpdateMsg
  | [], _ => []
  | e :: es, leftover =>
    ⟨[], common ++ [mkMpUnreachAttr (leftover.drop e) afi], []⟩ ::
      mkMpUnreachGo common afi es (leftover.take e)

/-- `UpdateBuilder::make_mp_unreach_update`. -/
def makeMpUnreachUpdate (all : Routes) (afi : Afi) (allowed : Nat)
    (common : PathAttributes) : List UpdateMsg :=
  mkMpUnreachGo common afi (splitRoutesRev all allowed) all

/-- The `for end in route_splits` loop of `make_mp_reach_update`. -/
def mkMpReachGo (common : PathAttributes) (afi : Afi) (nh : MpNextHop) :
    List Nat → Routes → List UpdateMsg
  | [], _ => []
  | e :: es, leftover =>
    ⟨[], common ++ [mkMpReachAttr (leftover.drop e) afi nh], []⟩ ::
      mkMpReachGo common afi nh es (leftover.take e)

/-- `UpdateBuilder::make_mp_reach_update`. -/
def makeMpReachUpdate (all : Routes) (afi : Afi) (allowed : Nat)
    (common : PathAttributes) (nh : MpNextHop) : List UpdateMsg :=
  mkMpReachGo common afi nh (splitRoutesRev all allowed) all

/-- The plain-BGP withdrawn-routes loop of `build`. -/
def mkPlainWdrGo (attrs : PathAttributes) :
    List Nat → Routes → List UpdateMsg
  | [], _ => []
  | e :: es, leftover =>
    ⟨leftover.drop e, attrs, []⟩ :: mkPlainWdrGo attrs es (leftover.take e)

/-- The plain-BGP NLRI loop of `build`. -/
def mkPlainNlriGo (attrs : PathAttributes) :
    List Nat → Routes → List UpdateMsg
  | [], _ => []
  | e :: es, leftover =>
    ⟨[], attrs, leftover.drop e⟩ :: mkPlainNlriGo attrs es (leftover.take e)

/-- The common path attributes prepared by `build`: the builder's other
attributes, then the optional ORIGIN, then the AS path, all
well-known-complete. -/
def buildSmallAttrs (b : UpdateBuilder) : PathAttributes :=
  b.other_path_attrs ++
    (match b.origin with
     | some o => [⟨wellKnownComplete, .origin o⟩]
     | none => []) ++
    [⟨wellKnownComplete, .asPath b.as_path⟩]

/-- `UpdateBuilder::build`.  The `usize` subtractions computing the
remaining sizes become truncated `Nat` subtraction; every input exercised
by a theorem below keeps them far from zero. -/
def build (b0 : UpdateBuilder) : Except BgpError (List UpdateMsg) :=
  match checkNextHop b0 with
  | .error e => .error e
  | .ok b =>
    let smallAttrs := buildSmallAttrs b
    if b.enable_mp_bgp then
      let remaining := 4096 - 19 - 4 - 3 - pathAttrsEncodedLen smallAttrs
      .ok (makeMpUnreachUpdate b.withdrawn_ipv4_routes .ipv4 remaining
          smallAttrs ++
        makeMpUnreachUpdate b.withdrawn_ipv6_routes .ipv6 remaining
          smallAttrs ++
        (match b.next_hop with
         | some nh =>
           let remaining2 := 4096 - 19 - 4 - 4 - mpNextHopEncodedLen nh -
             pathAttrsEncodedLen smallAttrs
           makeMpReachUpdate b.nlri_ipv4_routes .ipv4 remaining2 smallAttrs
               nh ++
             makeMpReachUpdate b.nlri_ipv6_routes .ipv6 remaining2 smallAttrs
               nh
         | none => []))
    else
      let remaining := 4096 - 19 - 4 - pathAttrsEncodedLen smallAttrs
      .ok (mkPlainWdrGo smallAttrs
          (splitRoutesRev b.withdrawn_ipv4_routes remaining)
          b.withdrawn_ipv4_routes ++
        (match b.next_hop with
         | some (.single (.v4 nh)) =>
           mkPlainNlriGo
             (smallAttrs ++ [⟨wellKnownComplete, .nextHop nh⟩])
             (splitRoutesRev b.nlri_ipv4_routes (remaining - 4 - 3))
             b.nlri_ipv4_routes
         | _ => []))

/-! ### CIDR host-count expansion (`pabgp/cidr.rs`) -/

/-- `Cidr4`: an IPv4 address (as its `u32` value) and a prefix length
(field `plen` stands for the source's `prefix_len`). -/
structure Cidr4 where
  addr : Nat
  plen : Nat
deriving DecidableEq

/-- The loop of `Cidr4::from_num_hosts`: while hosts remain, emit a block
of size `2 ^ ilog2(remaining)` and advance.  `u32` wrap-around of
`current_addr += netsize` (release-mode semantics) is the `% 2^32`. -/
def fromNumHostsGo : Nat → Nat → List Cidr4
  | _, 0 => []
  | cur, n + 1 =>
    let k := Nat.log2 (n + 1)
    let netsize := 2 ^ k
    ⟨cur, 32 - k⟩ :: fromNumHostsGo ((cur + netsize) % 4294967296)
      (n + 1 - netsize)
termination_by _ n => n
decreasing_by
  have h1 : 1 ≤ 2 ^ Nat.log2 (n + 1) := Nat.one_le_two_pow
  omega

/-- `Cidr4::from_num_hosts`. -/
def fromNumHosts (start numHosts : Nat) : List Cidr4 :=
  fromNumHostsGo start numHosts

/-- Membership of an address in the block denoted by a CIDR: the first
`plen` bits agree with the (possibly unaligned) block address. -/
def inCidr (c : Cidr4) (a : Nat) : Bool :=
  decide (a < 4294967296) &&
    decide (a / 2 ^ (32 - c.plen) = c.addr / 2 ^ (32 - c.plen))

/-! ### Delegation-store diff (`src/rirstat/mod.rs`) -/

/-- `RirName`. -/
inductive RirName where
  | arin : RirName
  | ripencc : RirName
  | apnic : RirName
  | lacnic : RirName
  | afrinic : RirName
deriving DecidableEq

/-- `CountrySpec`: a RIR and a two-byte ISO-3166 country code. -/
structure CountrySpec where
  rir : RirName
  cc1 : Nat
  cc2 : Nat
deriving DecidableEq

/-- A country-to-prefix-list map (`HashMap<CountrySpec, Vec<_>>`),
denotationally: `none` for an absent key. -/
def PrefixMap (α : Type) : Type := CountrySpec → Option (List α)

/-- The entry `compute_diff` inserts into `new_ipv4`/`new_ipv6` for a
country: for countries of an updated RIR present in the new snapshot, the
new prefixes not contained in the old list, inserted only when
non-empty. -/
def diffNewEntry {α : Type} [DecidableEq α] (old new : PrefixMap α)
    (updated : RirName → Bool) (c : CountrySpec) : Option (List α) :=
  match new c with
  | none => none
  | some nl =>
    if updated c.rir then
      let filtered := nl.filter fun p =>
        match old c with
        | none => true
        | some ol => decide (p ∉ ol)
      if filtered.isEmpty then none else some filtered
    else none

/-- The entry `compute_diff` inserts into `withdrawn_ipv4`/`withdrawn_ipv6`
for a country: old prefixes not contained in the new list, only when the
country exists in both snapshots and the result is non-empty. -/
def diffWithdrawnEntry {α : Type} [DecidableEq α] (old new : PrefixMap α)
    (updated : RirName → Bool) (c : CountrySpec) : Option (List α) :=
  match new c with
  | none => none
  | some nl =>
    if updated c.rir then
      match old c with
      | none => none
      | some ol =>
        let w := ol.filter fun p => decide (p ∉ nl)
        if w.isEmpty then none else some w
    else none

/-- The per-country effect of `DatabaseDiff::apply_to`: first `extend`
with the added entry (`entry(..).or_default()`), then `retain` the
prefixes not in the withdrawn entry. -/
def applyDiffEntry {α : Type} [DecidableEq α] (old : PrefixMap α)
    (dn dw : PrefixMap α) (c : CountrySpec) : Option (List α) :=
  let s1 : Option (List α) :=
    match dn c with
    | some ps => some ((old c).getD [] ++ ps)
    | none => old c
  match dw c with
  | some ws => some ((s1.getD []).filter fun p => decide (p ∉ ws))
  | none => s1

/-- `apply_to(old, compute_diff(old, new, updated))` at one country. -/
def computeDiffApply {α : Type} [DecidableEq α] (old new : PrefixMap α)
    (updated : RirName → Bool) (c : CountrySpec) : Option (List α) :=
  applyDiffEntry old (diffNewEntry old new updated)
    (diffWithdrawnEntry old new updated) c

/-! ### Session logic (`delegation-feed/session.rs`) -/

/-- `Capabilities::has_mp_ipv4_unicast`. -/
def hasMpIpv4Unicast (caps : Capabilities) : Bool :=
  caps.any fun v => decide (v = .multiProtocol .ipv4 .unicast)

/-- `Capabilities::has_mp_ipv6_unicast`. -/
def hasMpIpv6Unicast (caps : Capabilities) : Bool :=
  caps.any fun v => decide (v = .multiProtocol .ipv6 .unicast)

/-- The body of `Feeder::parse_peer_capabilities` acting on the session
state `(peer_caps, enable_mp_bgp)`. -/
def parsePeerCapabilitiesStep (st : Capabilities × Bool) :
    Capabilities × Bool :=
  (st.1, hasMpIpv4Unicast st.1 || hasMpIpv6Unicast st.1)

/-- The `while let Some(op) = peer_opt_params.0.pop()` loop of
`Feeder::connect`: parameters are popped from the **end** of the list;
each iteration replaces `peer_caps` with the parameter's capabilities and
recomputes `enable_mp_bgp`. -/
def capLoopRev : List OptParamValue → Capabilities × Bool →
    Capabilities × Bool
  | [], st => st
  | .capabilities caps :: rest, st =>
    capLoopRev rest (parsePeerCapabilitiesStep (caps, st.2))

/-- `Feeder::connect`'s capability loop on the popped order. -/
def feederCapLoop (params : OptionalParameters) (st : Capabilities × Bool) :
    Capabilities × Bool :=
  capLoopRev params.reverse st

/-- `CapabilitiesBuilder` chain used by `Feeder::connect`:
`mp_ipv4_unicast`, `mp_ipv6_unicast`, `enh_ipv4_over_ipv6`,
`four_octet_as_number_if_needed(local_as)`, then `build` (the extended
next hop TLV is appended last). -/
def connectCapabilities (localAs : Nat) : Capabilities :=
  [CapValue.multiProtocol .ipv4 .unicast,
   CapValue.multiProtocol .ipv6 .unicast] ++
    (if localAs > 65535 then [CapValue.fourOctetAsNumber localAs] else []) ++
    [CapValue.extendedNextHop [⟨.ipv4, .unicast, .ipv6⟩]]

/-- `Open::new_easy`: version 4, the ASN truncated through
`u16::try_from(..).unwrap_or(AS_TRANS)`, and a single Capabilities
optional parameter. -/
def openNewEasy (asn : Nat) (holdTime : Nat) (bgpId : Nat)
    (caps : Capabilities) : OpenMsg :=
  ⟨4, if asn ≤ 65535 then asn else 23456, holdTime, bgpId,
    [.capabilities caps]⟩

/-- Session-level errors of `delegation-feed/session.rs`. -/
inductive SessionErr where
  | invalidVersion : SessionErr
deriving DecidableEq

/-- The OPEN response constructed by `Feeder::connect`: a version mismatch
sends a NOTIFICATION and aborts with `InvalidVersion`; otherwise the
speaker answers with `Open::new_easy(local_as, 180.min(peer_hold_time),
local_id, capabilities)`. -/
def connectRespond (localAs localId : Nat) (peerVersion peerHoldTime : Nat) :
    Except SessionErr OpenMsg :=
  if peerVersion ≠ 4 then .error .invalidVersion
  else .ok (openNewEasy localAs (min 180 peerHoldTime) localId
    (connectCapabilities localAs))

/-! ### Auxiliary lemmas for the claims -/

theorem capLoopRev_snoc (l : List OptParamValue) (caps : Capabilities)
    (st : Capabilities × Bool) :
    capLoopRev (l ++ [.capabilities caps]) st =
      (caps, hasMpIpv4Unicast caps || hasMpIpv6Unicast caps) := by
  induction l generalizing st with
  | nil => rfl
  | cons op l ih =>
    obtain ⟨c'⟩ := op
    simp only [List.cons_append]
    rw [capLoopRev]
    exact ih _

theorem sliceEncodedLen_replicate (n : Nat) (r : RouteVal) :
    sliceEncodedLen (List.replicate n r) = n * (1 + r.pbytes.length) := by
  induction n with
  | zero => simp [sliceEncodedLen]
  | succ n ih =>
    simp only [List.replicate_succ, sliceEncodedLen, List.map_cons,
      List.sum_cons] at *
    rw [ih]
    ring

/-- The route list carried inside an MP attribute (and the empty list for
every other attribute kind). -/
def mpDataRoutes : PathData → Routes
  | .mpReachNlri v => v.nlri
  | .mpUnreachNlri v => v.withdrawnRoutes
  | _ => []

/-- Serialisation of a raw TLV sequence (type byte, length byte, value)
used to state claims about the optional-parameters decoder. -/
def tlvBytes (tlvs : List (Nat × List Nat)) : List Nat :=
  (tlvs.map fun tv => tv.1 % 256 :: tv.2.length % 256 :: tv.2).flatten

/-! ## The claims -/

/-- **C8.** The path-attribute flag helpers against the spec: the spec
says `is_optional` holds exactly when bit `0x80` is set, but the source
tests `self.0 & 0x80 == 0`, so the code reports `0x80` and the code's own
`OPTIONAL_TRANSITIVE_EXTENDED` constant (0x90) as *not* optional and the
`WELL_KNOWN_COMPLETE` constant (0x40) as optional.  The other three
helpers match the spec bits exactly. -/
theorem c8_flags_bug :
    isOptional 128 = false ∧ isOptional optionalTransitiveExtended = false ∧
    isOptional wellKnownComplete = true ∧
    (∀ f : Nat,
      (isTransitive f = true ↔ f &&& 64 ≠ 0) ∧
      (isPartial f = true ↔ f &&& 32 ≠ 0) ∧
      (isExtendedLength f = true ↔ f &&& 16 ≠ 0)) := by
  refine ⟨rfl, rfl, rfl, ?_⟩
  intro f
  refine ⟨?_, ?_, ?_⟩ <;>
    simp [isTransitive, isPartial, isExtendedLength, bne_iff_ne]

/-- **C7.** For every peer OPEN accepted in the Connect state, the OPEN
sent back has version 4, hold time `min 180 peer_hold_time`, the
configured local id as BGP identifier, and the 16-bit ASN field equal to
`local_as` when it fits 16 bits and `AS_TRANS` = 23456 otherwise. -/
theorem c7_connect_open_fields (localAs localId peerVersion peerHoldTime : Nat)
    (hv : peerVersion = 4) :
    ∃ o, connectRespond localAs localId peerVersion peerHoldTime = .ok o ∧
      o.version = 4 ∧ o.hold_time = min 180 peerHoldTime ∧
      o.bgp_id = localId ∧
      o.asn = (if localAs ≤ 65535 then localAs else 23456) := by
  subst hv
  refine ⟨_, rfl, rfl, rfl, rfl, rfl⟩

/-- Witness for C7 at a concrete 32-bit AS number. -/
theorem c7_connect_open_fields_witness :
    (4 : Nat) = 4 ∧
    ∃ o, connectRespond 4242420893 2887255714 4 240 = .ok o ∧
      o.version = 4 ∧ o.hold_time = min 180 240 ∧
      o.bgp_id = 2887255714 ∧
      o.asn = (if (4242420893 : Nat) ≤ 65535 then 4242420893 else 23456) :=
  ⟨rfl, c7_connect_open_fields 4242420893 2887255714 4 240 rfl⟩

/-- **C6 (counterexample).** The claim says `enable_mp_bgp` is false when
the peer advertises neither multi-protocol capability, "including when the
peer sends no optional parameters at all" — but with no optional
parameters the `while let ... pop()` loop never runs, so the flag keeps
its default `true`. -/
theorem c6_counterexample :
    feederCapLoop [] ([], true) = ([], true) ∧
    hasMpIpv4Unicast [] = false ∧ hasMpIpv6Unicast [] = false := by
  refine ⟨rfl, rfl, rfl⟩

/-- **C6 (amended).** After the capability loop, `enable_mp_bgp` keeps its
previous value (the default `true`) when the peer sent no optional
parameters; otherwise it equals `has_mp_ipv4_unicast || has_mp_ipv6_unicast`
of the capabilities of the *first* optional parameter (the loop pops from
the end, so the first parameter is processed last). -/
theorem c6_enable_mp_bgp (params : OptionalParameters) (caps0 : Capabilities)
    (e0 : Bool) :
    feederCapLoop params (caps0, e0) =
      match params with
      | [] => (caps0, e0)
      | .capabilities caps :: _ =>
        (caps, hasMpIpv4Unicast caps || hasMpIpv6Unicast caps) := by
  cases params with
  | nil => rfl
  | cons op rest =>
    obtain ⟨caps⟩ := op
    simp only [feederCapLoop, List.reverse_cons]
    exact capLoopRev_snoc _ _ _

/-- **C1 (counterexample).** Byte-exact round-tripping fails: the
capability bytes `02 01 00` (a RouteRefresh TLV padded with one surplus
byte) decode successfully to `[RouteRefresh]`, which re-encodes to
`02 00`; conversely the value `Unsupported(2, [0])` encodes to `02 01 00`
but decodes to `[RouteRefresh]`, not back to itself. -/
theorem c1_counterexample :
    parseCapabilities [2, 1, 0] = .ok [.routeRefresh] ∧
    encodeCapabilities [.routeRefresh] = [2, 0] ∧
    encodeCapabilities [.routeRefresh] ≠ [2, 1, 0] ∧
    encodeCapabilities [.unsupported 2 [0]] = [2, 1, 0] ∧
    parseCapabilities (encodeCapabilities [.unsupported 2 [0]]) ≠
      .ok [.unsupported 2 [0]] := by
  have h1 : parseCapValue [2, 1, 0] = .ok (.routeRefresh, []) := rfl
  have h2 : parseCapabilities [2, 1, 0] = .ok [.routeRefresh] := by
    rw [parseCapabilities_cons_of [2, 1, 0] .routeRefresh []
      (by simp) h1]
    simp
  refine ⟨h2, rfl, by decide, rfl, ?_⟩
  rw [show encodeCapabilities [.unsupported 2 [0]] = [2, 1, 0] from rfl, h2]
  simp

/-- **C1 (amended).** Decode-of-encode is the identity for every message
and component value satisfying the codec's representation invariants
(prefix bytes of exactly `⌈len/8⌉` octets, length fields that fit their
width, unknown-code constraints on `Unsupported` arms, at most one
optional-parameter TLV and at most one AS-path segment), and
encode-of-decode reproduces the input bytes verbatim for route lists; it
does **not** hold for every successfully decoded byte string (see the
counterexample). -/
theorem c1_roundtrip :
    (∀ m, wfMessage m = true →
      decodeMessage (encodeMessage m) = .ok (some (m, []))) ∧
    (∀ caps, wfCapabilities caps = true →
      parseCapabilities (encodeCapabilities caps) = .ok caps) ∧
    (∀ ps, wfOptionalParameters ps = true →
      parseOptionalParameters (encodeOptionalParameters ps) = .ok ps) ∧
    (∀ vs, wfPathAttrs vs = true →
      parsePathAttributes (encodePathAttributes vs) = .ok vs) ∧
    (∀ rs, wfRoutes rs = true → parseRoutes (encodeRoutes rs) = .ok rs) ∧
    (∀ bs rs, (∀ b ∈ bs, b < 256) → parseRoutes bs = .ok rs →
      encodeRoutes rs = bs) :=
  ⟨decodeMessage_encode, parseCapabilities_encode,
    parseOptionalParameters_encode, parsePathAttributes_encode,
    parseRoutes_encode, parseRoutes_complete⟩

/-- Witness for C1: concrete round trips through every codec layer of the
claim — a KEEPALIVE message, a capability list, an optional-parameter
list, a path-attribute list, a route list, and a byte-exact re-encode. -/
theorem c1_roundtrip_witness :
    (wfMessage .keepalive = true ∧
      decodeMessage (encodeMessage .keepalive) =
        .ok (some (.keepalive, []))) ∧
    (wfCapabilities [.routeRefresh, .fourOctetAsNumber 4242420893] = true ∧
      parseCapabilities
          (encodeCapabilities
            [.routeRefresh, .fourOctetAsNumber 4242420893]) =
        .ok [.routeRefresh, .fourOctetAsNumber 4242420893]) ∧
    (wfOptionalParameters [.capabilities [.routeRefresh]] = true ∧
      parseOptionalParameters
          (encodeOptionalParameters [.capabilities [.routeRefresh]]) =
        .ok [.capabilities [.routeRefresh]]) ∧
    (wfPathAttrs [⟨wellKnownComplete, .origin .igp⟩] = true ∧
      parsePathAttributes
          (encodePathAttributes [⟨wellKnownComplete, .origin .igp⟩]) =
        .ok [⟨wellKnownComplete, .origin .igp⟩]) ∧
    (wfRoutes [⟨24, [10, 0, 0]⟩] = true ∧
      parseRoutes (encodeRoutes [⟨24, [10, 0, 0]⟩]) =
        .ok [⟨24, [10, 0, 0]⟩]) ∧
    encodeRoutes ([] : Routes) = [] :=
  ⟨⟨by decide, c1_roundtrip.1 .keepalive (by decide)⟩,
    ⟨by decide, c1_roundtrip.2.1 [.routeRefresh, .fourOctetAsNumber 4242420893]
      (by decide)⟩,
    ⟨by decide, c1_roundtrip.2.2.1 [.capabilities [.routeRefresh]]
      (by decide)⟩,
    ⟨by decide, c1_roundtrip.2.2.2.1 [⟨wellKnownComplete, .origin .igp⟩]
      (by decide)⟩,
    ⟨by decide, c1_roundtrip.2.2.2.2.1 [⟨24, [10, 0, 0]⟩] (by decide)⟩,
    c1_roundtrip.2.2.2.2.2 [] [] (by decide) parseRoutes_nil⟩

/-- **C9 (counterexample).** A body of two back-to-back well-formed TLVs
(`02 00` twice, preceded by the correct total length 4) is rejected:
`check_remaining_len!` compares the first TLV's length byte (0) against
*all* remaining bytes (2), so the decoder fails with
`InternalLength(Greater)` even though each TLV alone decodes fine. -/
theorem c9_counterexample :
    parseOptionalParameters [4, 2, 0, 2, 0] =
      .error (.internalLength "optional parameter" .gt) ∧
    parseOptionalParameters [2, 2, 0] = .ok [.capabilities []] := by
  constructor
  · rw [parseOptionalParameters]
    rw [show compare (List.length [2, 0, 2, 0]) 4 = Ordering.eq from by decide]
    rw [parseOptParamsLoop]
    rw [show parseOptParamValue [2, 0, 2, 0] =
        .error (.internalLength "optional parameter" .gt) from by
      rw [parseOptParamValue]
      rw [show compare (List.length [2, 0]) 0 = Ordering.gt from by decide]]
  · rw [parseOptionalParameters]
    rw [show compare (List.length [2, 0]) 2 = Ordering.eq from by decide]
    rw [parseOptParamsLoop]
    rw [show parseOptParamValue [2, 0] = .ok (.capabilities [], []) from by
      rw [parseOptParamValue]
      rw [show compare (List.length ([] : List Nat)) 0 = Ordering.eq from by
        decide]
      rw [if_pos rfl, parseCapabilities_nil]]
    simp

/-- **C9 (amended).** `OptionalParameters::from_bytes` succeeds exactly on
a body holding a *single* TLV whose length byte matches the rest of the
body: a type-2 TLV yields the result of the capability decoder, any other
type fails with `InternalType`, and any two or more TLVs fail with
`InternalLength(Greater)` because the first TLV's length is compared
against all remaining bytes. -/
theorem c9_optional_params :
    (∀ payload : List Nat, payload.length ≤ 253 →
      parseOptionalParameters
          ((2 + payload.length) :: 2 :: payload.length :: payload) =
        match parseCapabilities payload with
        | .ok caps => .ok [.capabilities caps]
        | .error e => .error e) ∧
    (∀ (t : Nat) (payload : List Nat), t ≠ 2 → payload.length ≤ 253 →
      parseOptionalParameters
          ((2 + payload.length) :: t :: payload.length :: payload) =
        .error (.internalType "optional parameter" t)) ∧
    (∀ (t1 : Nat) (v1 : List Nat) (t2 : Nat) (v2 : List Nat)
        (tl : List (Nat × List Nat)),
      (tlvBytes ((t1, v1) :: (t2, v2) :: tl)).length < 256 →
      parseOptionalParameters
          ((tlvBytes ((t1, v1) :: (t2, v2) :: tl)).length ::
            tlvBytes ((t1, v1) :: (t2, v2) :: tl)) =
        .error (.internalLength "optional parameter" .gt)) := by
  refine ⟨?_, ?_, ?_⟩
  · intro payload hlen
    rw [parseOptionalParameters]
    rw [show compare (List.length (2 :: payload.length :: payload))
        (2 + payload.length) = Ordering.eq from by
      simp [Nat.compare_eq_eq]; omega]
    rw [parseOptParamsLoop]
    cases hc : parseCapabilities payload with
    | ok caps =>
      rw [show parseOptParamValue (2 :: payload.length :: payload) =
          .ok (.capabilities caps, []) from by
        rw [parseOptParamValue]
        rw [show compare payload.length payload.length = Ordering.eq from by
          simp [Nat.compare_eq_eq]]
        rw [if_pos rfl, hc]]
      simp
    | error e =>
      rw [show parseOptParamValue (2 :: payload.length :: payload) =
          .error e from by
        rw [parseOptParamValue]
        rw [show compare payload.length payload.length = Ordering.eq from by
          simp [Nat.compare_eq_eq]]
        rw [if_pos rfl, hc]]
  · intro t payload ht hlen
    rw [parseOptionalParameters]
    rw [show compare (List.length (t :: payload.length :: payload))
        (2 + payload.length) = Ordering.eq from by
      simp [Nat.compare_eq_eq]; omega]
    rw [parseOptParamsLoop]
    rw [show parseOptParamValue (t :: payload.length :: payload) =
        .error (.internalType "optional parameter" t) from by
      rw [parseOptParamValue]
      rw [show compare payload.length payload.length = Ordering.eq from by
        simp [Nat.compare_eq_eq]]
      rw [if_neg ht]]
  · intro t1 v1 t2 v2 tl hlt
    have hbody : tlvBytes ((t1, v1) :: (t2, v2) :: tl) =
        t1 % 256 :: v1.length % 256 ::
          (v1 ++ tlvBytes ((t2, v2) :: tl)) := by
      simp [tlvBytes]
    have htail : 2 ≤ (tlvBytes ((t2, v2) :: tl)).length := by
      simp [tlvBytes]
    rw [hbody]
    rw [parseOptionalParameters]
    rw [show compare
        (List.length (t1 % 256 :: v1.length % 256 ::
          (v1 ++ tlvBytes ((t2, v2) :: tl))))
        (List.length (t1 % 256 :: v1.length % 256 ::
          (v1 ++ tlvBytes ((t2, v2) :: tl)))) = Ordering.eq from by
      simp [Nat.compare_eq_eq]]
    rw [parseOptParamsLoop]
    rw [show parseOptParamValue (t1 % 256 :: v1.length % 256 ::
        (v1 ++ tlvBytes ((t2, v2) :: tl))) =
        .error (.internalLength "optional parameter" .gt) from by
      rw [parseOptParamValue]
      rw [show compare (v1 ++ tlvBytes ((t2, v2) :: tl)).length
          (v1.length % 256) = Ordering.gt from by
        rw [Nat.compare_eq_gt]
        have hm : v1.length % 256 ≤ v1.length := Nat.mod_le _ _
        simp only [List.length_append]
        omega]]

/-- Witness for C9: the body `02 02 02 00` (one TLV carrying a
RouteRefresh capability) decodes to that capability list; a type-3 TLV is
rejected with `InternalType 3`; and the double-TLV body `02 00 02 00` is
rejected with `InternalLength(Greater)`. -/
theorem c9_optional_params_witness :
    parseOptionalParameters [4, 2, 2, 2, 0] =
      .ok [.capabilities [.routeRefresh]] ∧
    parseOptionalParameters [2, 3, 0] =
      .error (.internalType "optional parameter" 3) ∧
    parseOptionalParameters [4, 2, 0, 2, 0] =
      .error (.internalLength "optional parameter" .gt) := by
  refine ⟨?_, ?_, ?_⟩
  · have h := c9_optional_params.1 [2, 0] (by decide)
    have hc : parseCapabilities [2, 0] = .ok [.routeRefresh] := by
      rw [parseCapabilities_cons_of [2, 0] .routeRefresh [] (by simp) rfl]
      simp
    rw [hc] at h
    simpa using h
  · simpa using c9_optional_params.2.1 3 [] (by decide) (by decide)
  · simpa [tlvBytes] using c9_optional_params.2.2 2 [] 2 [] [] (by decide)

/-- The builder input exhibiting C5: MP-BGP enabled, an IPv4 NLRI route,
and no next hop configured. -/
def c5Builder : UpdateBuilder :=
  ⟨[], [], [⟨24, [10, 0, 0]⟩], [], none, [], none, [], true⟩

/-- **C5.** The claim (and the function's own doc comment) says `build`
fails with `NoNextHop` whenever routes are added without a next hop, but
`check_next_hop` only inspects the *IPv6* lists: with an IPv4 NLRI route
and no next hop, `build` succeeds and silently drops the route — the
produced updates carry empty MP_UNREACH attributes and no trace of
`10.0.0.0/24`. -/
theorem c5_no_next_hop_not_enforced :
    c5Builder.next_hop = none ∧
    c5Builder.nlri_ipv4_routes = [⟨24, [10, 0, 0]⟩] ∧
    build c5Builder = .ok
      [⟨[], [⟨wellKnownComplete, .asPath []⟩, mkMpUnreachAttr [] .ipv4], []⟩,
       ⟨[], [⟨wellKnownComplete, .asPath []⟩, mkMpUnreachAttr [] .ipv6],
         []⟩] := by
  refine ⟨rfl, rfl, ?_⟩
  simp [build, checkNextHop, c5Builder, buildSmallAttrs, makeMpUnreachUpdate,
    splitRoutesRev_nil, mkMpUnreachGo]

/-- **C10.** With empty route sets the builder still emits updates: on
failure (and on empty input) `split_routes_to_allowed_size_rev` returns
`[0]`, and `build` on a builder with all four route lists empty produces
its fixed per-mode number of updates (MP: unreach v4 + unreach v6, plus
reach v4 + reach v6 when a next hop is set; plain: one withdrawn update,
plus one NLRI update when an IPv4 next hop is set), each carrying no
withdrawn routes, no NLRI, and only empty-route-list MP attributes. -/
theorem c10_empty_routes_still_emit :
    (∀ s : Nat, splitRoutesRev [] s = [0]) ∧
    (∀ (b : UpdateBuilder) (us : List UpdateMsg),
      b.withdrawn_ipv4_routes = [] → b.withdrawn_ipv6_routes = [] →
      b.nlri_ipv4_routes = [] → b.nlri_ipv6_routes = [] →
      b.other_path_attrs = [] → build b = .ok us →
      us ≠ [] ∧
      us.length = (if b.enable_mp_bgp then
          if b.next_hop.isSome then 4 else 2
        else match b.next_hop with
          | some (.single (.v4 _)) => 2
          | _ => 1) ∧
      ∀ u ∈ us, u.withdrawn_routes = [] ∧ u.nlri = [] ∧
        ∀ pa ∈ u.path_attributes, mpDataRoutes pa.data = []) := by
  refine ⟨splitRoutesRev_nil, ?_⟩
  rintro ⟨w4, w6, n4, n6, orig, asp, nh, other, mp⟩ us h1 h2 h3 h4 h5 hb
  obtain rfl : w4 = [] := h1
  obtain rfl : w6 = [] := h2
  obtain rfl : n4 = [] := h3
  obtain rfl : n6 = [] := h4
  obtain rfl : other = [] := h5
  cases mp with
  | true =>
    cases nh with
    | none =>
      cases orig with
      | none =>
        simp [build, checkNextHop, buildSmallAttrs, makeMpUnreachUpdate,
          splitRoutesRev_nil, mkMpUnreachGo] at hb
        subst hb
        refine ⟨by simp, by simp, ?_⟩
        intro u hu
        simp at hu
        rcases hu with rfl | rfl <;> refine ⟨rfl, rfl, ?_⟩ <;>
          · intro pa hpa
            simp at hpa
            rcases hpa with rfl | rfl <;> rfl
      | some o =>
        simp [build, checkNextHop, buildSmallAttrs, makeMpUnreachUpdate,
          splitRoutesRev_nil, mkMpUnreachGo] at hb
        subst hb
        refine ⟨by simp, by simp, ?_⟩
        intro u hu
        simp at hu
        rcases hu with rfl | rfl <;> refine ⟨rfl, rfl, ?_⟩ <;>
          · intro pa hpa
            simp at hpa
            rcases hpa with rfl | rfl | rfl <;> rfl
    | some nhv =>
      cases orig with
      | none =>
        simp [build, checkNextHop, buildSmallAttrs, makeMpUnreachUpdate,
          makeMpReachUpdate, splitRoutesRev_nil, mkMpUnreachGo,
          mkMpReachGo] at hb
        subst hb
        refine ⟨by simp, by simp, ?_⟩
        intro u hu
        simp at hu
        rcases hu with rfl | rfl | rfl | rfl <;> refine ⟨rfl, rfl, ?_⟩ <;>
          · intro pa hpa
            simp at hpa
            rcases hpa with rfl | rfl <;> rfl
      | some o =>
        simp [build, checkNextHop, buildSmallAttrs, makeMpUnreachUpdate,
          makeMpReachUpdate, splitRoutesRev_nil, mkMpUnreachGo,
          mkMpReachGo] at hb
        subst hb
        refine ⟨by simp, by simp, ?_⟩
        intro u hu
        simp at hu
        rcases hu with rfl | rfl | rfl | rfl <;> refine ⟨rfl, rfl, ?_⟩ <;>
          · intro pa hpa
            simp at hpa
            rcases hpa with rfl | rfl | rfl <;> rfl
  | false =>
    cases nh with
    | none =>
      cases orig with
      | none =>
        simp [build, checkNextHop, buildSmallAttrs, splitRoutesRev_nil,
          mkPlainWdrGo] at hb
        subst hb
        refine ⟨by simp, by simp, ?_⟩
        intro u hu
        simp at hu
        subst hu
        refine ⟨rfl, rfl, ?_⟩
        intro pa hpa
        simp at hpa
        subst hpa
        rfl
      | some o =>
        simp [build, checkNextHop, buildSmallAttrs, splitRoutesRev_nil,
          mkPlainWdrGo] at hb
        subst hb
        refine ⟨by simp, by simp, ?_⟩
        intro u hu
        simp at hu
        subst hu
        refine ⟨rfl, rfl, ?_⟩
        intro pa hpa
        simp at hpa
        rcases hpa with rfl | rfl <;> rfl
    | some nhv =>
      cases nhv with
      | single ip =>
        cases ip with
        | v4 a =>
          cases orig with
          | none =>
            simp [build, checkNextHop, buildSmallAttrs, splitRoutesRev_nil,
              mkPlainWdrGo, mkPlainNlriGo] at hb
            subst hb
            refine ⟨by simp, by simp, ?_⟩
            intro u hu
            simp at hu
            rcases hu with rfl | rfl
            · refine ⟨rfl, rfl, ?_⟩
              intro pa hpa
              simp at hpa
              rcases hpa with rfl | rfl <;> rfl
            · refine ⟨rfl, rfl, ?_⟩
              intro pa hpa
              simp at hpa
              rcases hpa with rfl | rfl | rfl <;> rfl
          | some o =>
            simp [build, checkNextHop, buildSmallAttrs, splitRoutesRev_nil,
              mkPlainWdrGo, mkPlainNlriGo] at hb
            subst hb
            refine ⟨by simp, by simp, ?_⟩
            intro u hu
            simp at hu
            rcases hu with rfl | rfl
            · refine ⟨rfl, rfl, ?_⟩
              intro pa hpa
              simp at hpa
              rcases hpa with rfl | rfl | rfl <;> rfl
            · refine ⟨rfl, rfl, ?_⟩
              intro pa hpa
              simp at hpa
              rcases hpa with rfl | rfl | rfl | rfl <;> rfl
        | v6 a =>
          simp [build, checkNextHop] at hb
      | v6AndLL a b =>
        simp [build, checkNextHop] at hb

/-- Witness for C10: the all-empty MP-BGP builder produces exactly the two
empty-attribute updates. -/
theorem c10_empty_routes_still_emit_witness :
    splitRoutesRev [] 5 = [0] ∧
    (⟨[], [], [], [], none, [], none, [], true⟩ :
        UpdateBuilder).withdrawn_ipv4_routes = [] ∧
    ([⟨[], [⟨wellKnownComplete, .asPath []⟩, mkMpUnreachAttr [] .ipv4], []⟩,
      ⟨[], [⟨wellKnownComplete, .asPath []⟩, mkMpUnreachAttr [] .ipv6], []⟩] :
        List UpdateMsg) ≠ [] ∧
    ([⟨[], [⟨wellKnownComplete, .asPath []⟩, mkMpUnreachAttr [] .ipv4], []⟩,
      ⟨[], [⟨wellKnownComplete, .asPath []⟩, mkMpUnreachAttr [] .ipv6], []⟩] :
        List UpdateMsg).length =
      (if (⟨[], [], [], [], none, [], none, [], true⟩ :
          UpdateBuilder).enable_mp_bgp then
        if (⟨[], [], [], [], none, [], none, [], true⟩ :
            UpdateBuilder).next_hop.isSome then 4 else 2
      else match (⟨[], [], [], [], none, [], none, [], true⟩ :
          UpdateBuilder).next_hop with
        | some (.single (.v4 _)) => 2
        | _ => 1) := by
  have h := (c10_empty_routes_still_emit).2
    ⟨[], [], [], [], none, [], none, [], true⟩
    [⟨[], [⟨wellKnownComplete, .asPath []⟩, mkMpUnreachAttr [] .ipv4], []⟩,
     ⟨[], [⟨wellKnownComplete, .asPath []⟩, mkMpUnreachAttr [] .ipv6], []⟩]
    rfl rfl rfl rfl rfl
    (by simp [build, checkNextHop, buildSmallAttrs, makeMpUnreachUpdate,
      splitRoutesRev_nil, mkMpUnreachGo])
  exact ⟨(c10_empty_routes_still_emit).1 5, rfl, h.1, h.2.1⟩

/-- A /32 IPv4 route, 5 bytes on the wire. -/
def c2Route : RouteVal := ⟨32, [10, 0, 0, 0]⟩

/-- The builder input exhibiting C2: 813 withdrawn /32 IPv4 routes under
MP-BGP. -/
def c2Builder : UpdateBuilder :=
  ⟨List.replicate 813 c2Route, [], [], [], none, [], none, [], true⟩

/-- **C2.** The claim says every update produced by `build` fits 4096
bytes on the wire.  But the MP branch budgets
`4096 - 19 - 4 - 3 - small_attrs_len` for the route bytes, forgetting the
4 bytes of the MP attribute's own header (flags, type, 2-byte extended
length).  813 withdrawn /32 IPv4 routes occupy 4065 ≤ 4067 allowed bytes,
so they are kept in a single chunk — whose encoded message is 4098 bytes,
over the 4096-byte maximum. -/
theorem c2_mp_update_oversized :
    build c2Builder = .ok
      [⟨[], [⟨wellKnownComplete, .asPath []⟩,
         mkMpUnreachAttr (List.replicate 813 c2Route) .ipv4], []⟩,
       ⟨[], [⟨wellKnownComplete, .asPath []⟩, mkMpUnreachAttr [] .ipv6],
         []⟩] ∧
    (encodeMessage (.updateM
      ⟨[], [⟨wellKnownComplete, .asPath []⟩,
        mkMpUnreachAttr (List.replicate 813 c2Route) .ipv4], []⟩)).length =
      4098 ∧
    4096 < 4098 := by
  have hslice : sliceEncodedLen (List.replicate 813 c2Route) = 4065 := by
    rw [sliceEncodedLen_replicate]
    norm_num [c2Route]
  have hsplit : splitRoutesRev (List.replicate 813 c2Route) 4067 = [0] :=
    splitRoutesRev_single _ _ (by rw [List.length_replicate]; omega)
      (by omega)
  have hroutes : (encodeRoutes (List.replicate 813 c2Route)).length =
      4065 := by
    rw [encodeRoutes_length, hslice]
  have hsmall :
      pathAttrsEncodedLen [⟨wellKnownComplete, PathData.asPath []⟩] = 3 := by
    decide
  obtain ⟨R, hR⟩ : ∃ R, List.replicate 813 c2Route = R := ⟨_, rfl⟩
  rw [hR] at hsplit hroutes
  refine ⟨?_, ?_, by omega⟩
  · show build ⟨List.replicate 813 c2Route, [], [], [], none, [], none, [],
      true⟩ = _
    rw [hR]
    simp [build, checkNextHop, buildSmallAttrs,
      makeMpUnreachUpdate, hsmall, hsplit, splitRoutesRev_nil, mkMpUnreachGo]
  · rw [hR]
    have hext : isExtendedLength optionalTransitiveExtended = true := by
      decide
    have ha2 : (encodePathAttr (mkMpUnreachAttr R .ipv4)).length = 4072 := by
      simp [encodePathAttr, mkMpUnreachAttr, encodePathData, encodeMpUnreach,
        w16, hext, hroutes]
    have ha1 : (encodePathAttr
        (⟨wellKnownComplete, PathData.asPath []⟩ : PathAttr)).length = 3 := by
      decide
    simp [encodeMessage, msgBody, encodeUpdate, encodePathAttributes, w16,
      encodeRoutes, ha1, ha2]

/-- **C4.** For every country of an updated RIR present in both the old
and the new snapshot, applying the computed diff to the old store yields
an entry whose membership coincides with the new snapshot's prefix list
(the diff adds the new-not-old prefixes and retains only those not
withdrawn). -/
theorem c4_diff_apply {α : Type} [DecidableEq α] (old new : PrefixMap α)
    (updated : RirName → Bool) (c : CountrySpec) (ol nl : List α)
    (hrir : updated c.rir = true) (hold : old c = some ol)
    (hnew : new c = some nl) :
    ∃ res, computeDiffApply old new updated c = some res ∧
      ∀ x, x ∈ res ↔ x ∈ nl := by
  have nilOf : ∀ l : List α, l.isEmpty = true → l = [] := by
    intro l h
    cases l with
    | nil => rfl
    | cons a t => simp at h
  simp only [computeDiffApply, applyDiffEntry, diffNewEntry,
    diffWithdrawnEntry, hnew, hold, hrir]
  cases hfe : (nl.filter fun p => decide (p ∉ ol)).isEmpty with
  | true =>
    have hf' : ∀ a ∈ nl, a ∈ ol := by
      intro a ha
      by_contra hno
      have hmem : a ∈ nl.filter fun p => decide (p ∉ ol) :=
        List.mem_filter.2 ⟨ha, by simpa using hno⟩
      rw [nilOf _ hfe] at hmem
      simp at hmem
    cases hwe : (ol.filter fun p => decide (p ∉ nl)).isEmpty with
    | true =>
      have hw' : ∀ a ∈ ol, a ∈ nl := by
        intro a ha
        by_contra hno
        have hmem : a ∈ ol.filter fun p => decide (p ∉ nl) :=
          List.mem_filter.2 ⟨ha, by simpa using hno⟩
        rw [nilOf _ hwe] at hmem
        simp at hmem
      refine ⟨_, rfl, ?_⟩
      intro x
      exact ⟨fun h => hw' x h, fun h => hf' x h⟩
    | false =>
      refine ⟨_, rfl, ?_⟩
      intro x
      have h1 : x ∈ nl → x ∈ ol := fun h => hf' x h
      simp only [List.mem_filter, decide_eq_true_eq]
      tauto
  | false =>
    cases hwe : (ol.filter fun p => decide (p ∉ nl)).isEmpty with
    | true =>
      have hw' : ∀ a ∈ ol, a ∈ nl := by
        intro a ha
        by_contra hno
        have hmem : a ∈ ol.filter fun p => decide (p ∉ nl) :=
          List.mem_filter.2 ⟨ha, by simpa using hno⟩
        rw [nilOf _ hwe] at hmem
        simp at hmem
      refine ⟨_, rfl, ?_⟩
      intro x
      have h2 : x ∈ ol → x ∈ nl := fun h => hw' x h
      simp only [Option.getD_some, List.mem_append, List.mem_filter,
        decide_eq_true_eq]
      tauto
    | false =>
      refine ⟨_, rfl, ?_⟩
      intro x
      simp [List.mem_filter, List.mem_append]
      tauto

/-- Witness for C4: a one-country store where `{1, 2}` becomes `{2, 3}`. -/
theorem c4_diff_apply_witness :
    ∃ res, computeDiffApply
        (fun c => if c = ⟨.apnic, 67, 78⟩ then some [1, 2] else none)
        (fun c => if c = ⟨.apnic, 67, 78⟩ then some [2, 3] else none)
        (fun _ => true) ⟨.apnic, 67, 78⟩ = some res ∧
      ∀ x, x ∈ res ↔ x ∈ [2, 3] :=
  c4_diff_apply
    (fun c => if c = ⟨.apnic, 67, 78⟩ then some [1, 2] else none)
    (fun c => if c = ⟨.apnic, 67, 78⟩ then some [2, 3] else none)
    (fun _ => true) ⟨.apnic, 67, 78⟩ [1, 2] [2, 3]
    rfl (by decide) (by decide)

theorem log2_le_31 {n : Nat} (hn : n < 4294967296) (h0 : n ≠ 0) :
    Nat.log2 n ≤ 31 := by
  by_contra hgt
  have h32 : 32 ≤ Nat.log2 n := by omega
  have h1 : (2 : Nat) ^ 32 ≤ 2 ^ Nat.log2 n :=
    Nat.pow_le_pow_right (by omega) h32
  have h2 : 2 ^ Nat.log2 n ≤ n := Nat.log2_self_le h0
  have h3 : (2 : Nat) ^ 32 = 4294967296 := by norm_num
  omega

/-- The block sizes emitted by the `from_num_hosts` loop always add up to
the requested host count. -/
theorem fromNumHostsGo_sum (n : Nat) : ∀ cur, n < 4294967296 →
    ((fromNumHostsGo cur n).map fun c => 2 ^ (32 - c.plen)).sum = n := by
  induction n using Nat.strong_induction_on with
  | _ n ih =>
    intro cur hn
    match n with
    | 0 =>
      rw [fromNumHostsGo]
      simp
    | m + 1 =>
      rw [fromNumHostsGo]
      have hk31 : Nat.log2 (m + 1) ≤ 31 := log2_le_31 hn (by omega)
      have hle : 2 ^ Nat.log2 (m + 1) ≤ m + 1 := Nat.log2_self_le (by omega)
      have hpow : 0 < 2 ^ Nat.log2 (m + 1) := pow_pos (by norm_num) _
      simp only [List.map_cons, List.sum_cons]
      rw [ih (m + 1 - 2 ^ Nat.log2 (m + 1)) (by omega) _ (by omega)]
      rw [show 32 - (32 - Nat.log2 (m + 1)) = Nat.log2 (m + 1) from by omega]
      omega

/-- Membership in an *aligned* CIDR block is exactly membership in the
corresponding half-open address interval. -/
theorem inCidr_block {cur k a : Nat} (hk : k ≤ 31)
    (halign : cur % 2 ^ k = 0) (hbound : cur + 2 ^ k ≤ 4294967296) :
    (inCidr ⟨cur, 32 - k⟩ a = true) ↔ (cur ≤ a ∧ a < cur + 2 ^ k) := by
  have hpow : (0 : Nat) < 2 ^ k := pow_pos (by norm_num) k
  have h1 := Nat.div_add_mod cur (2 ^ k)
  rw [halign, Nat.add_zero] at h1
  simp only [inCidr, Bool.and_eq_true, decide_eq_true_eq]
  rw [show 32 - (32 - k) = k from by omega]
  constructor
  · rintro ⟨ha32, hdiv⟩
    have h2 := Nat.div_add_mod a (2 ^ k)
    have h3 : a % 2 ^ k < 2 ^ k := Nat.mod_lt _ hpow
    rw [hdiv, h1] at h2
    omega
  · rintro ⟨hle, hlt⟩
    refine ⟨by omega, ?_⟩
    have hd : a = 2 ^ k * (cur / 2 ^ k) + (a - cur) := by omega
    have hz : (a - cur) / 2 ^ k = 0 := Nat.div_eq_of_lt (by omega)
    rw [hd, Nat.mul_add_div hpow, hz, Nat.add_zero]

/-- Under alignment of the start address and no `u32` overflow, the blocks
emitted by the `from_num_hosts` loop cover exactly the requested address
interval. -/
theorem fromNumHostsGo_mem (n : Nat) : ∀ cur, 0 < n → n < 4294967296 →
    cur % 2 ^ Nat.log2 n = 0 → cur + n ≤ 4294967296 →
    ∀ a, (∃ c ∈ fromNumHostsGo cur n, inCidr c a = true) ↔
      (cur ≤ a ∧ a < cur + n) := by
  induction n using Nat.strong_induction_on with
  | _ n ih =>
    intro cur hpos hn halign hbound a
    match n, hpos with
    | m + 1, _ =>
      rw [fromNumHostsGo]
      have hk31 : Nat.log2 (m + 1) ≤ 31 := log2_le_31 hn (by omega)
      have hle : 2 ^ Nat.log2 (m + 1) ≤ m + 1 := Nat.log2_self_le (by omega)
      have hlt2 : m + 1 < 2 ^ (Nat.log2 (m + 1) + 1) := Nat.lt_log2_self
      rw [pow_succ] at hlt2
      have hpow : 0 < 2 ^ Nat.log2 (m + 1) := pow_pos (by norm_num) _
      have hblock := @inCidr_block cur (Nat.log2 (m + 1)) a hk31 halign
        (by omega)
      simp only [List.mem_cons, exists_eq_or_imp]
      cases hrest : m + 1 - 2 ^ Nat.log2 (m + 1) with
      | zero =>
        rw [fromNumHostsGo]
        simp
        rw [hblock]
        omega
      | succ m' =>
        have hcurlt : cur + 2 ^ Nat.log2 (m + 1) < 4294967296 := by omega
        rw [Nat.mod_eq_of_lt hcurlt]
        have hk'lt : Nat.log2 (m' + 1) < Nat.log2 (m + 1) := by
          have ha1 : 2 ^ Nat.log2 (m' + 1) ≤ m' + 1 :=
            Nat.log2_self_le (by omega)
          by_contra hge
          have ha2 : 2 ^ Nat.log2 (m + 1) ≤ 2 ^ Nat.log2 (m' + 1) :=
            Nat.pow_le_pow_right (by omega) (by omega)
          omega
        have halign' :
            (cur + 2 ^ Nat.log2 (m + 1)) % 2 ^ Nat.log2 (m' + 1) = 0 := by
          have hdvd1 : 2 ^ Nat.log2 (m' + 1) ∣ 2 ^ Nat.log2 (m + 1) :=
            pow_dvd_pow 2 (by omega)
          have hdvd2 : 2 ^ Nat.log2 (m' + 1) ∣ cur :=
            hdvd1.trans (Nat.dvd_of_mod_eq_zero halign)
          obtain ⟨c1, hc1⟩ := hdvd2
          obtain ⟨c2, hc2⟩ := hdvd1
          rw [hc1, hc2, ← Nat.mul_add, Nat.mul_mod_right]
        have hih := ih (m' + 1) (by omega) (cur + 2 ^ Nat.log2 (m + 1))
          (by omega) (by omega) halign' (by omega) a
        rw [hih, hblock]
        omega

/-- **C3 (counterexample).** The claim says the produced blocks cover
exactly `[start, start + n)`; but for an unaligned start the loop still
emits the oversized block (after logging an error): `from_num_hosts(1, 2)`
yields `1/31`, whose block contains address 0 < start. -/
theorem c3_counterexample :
    fromNumHosts 1 2 = [⟨1, 31⟩] ∧ inCidr ⟨1, 31⟩ 0 = true ∧
    ¬ ((1 : Nat) ≤ 0) := by
  refine ⟨?_, by decide, by decide⟩
  have hl2 : Nat.log2 2 = 1 := by
    rw [Nat.log2, if_pos (by omega), Nat.log2, if_neg (by omega)]
  show fromNumHostsGo 1 2 = _
  rw [fromNumHostsGo]
  simp only [hl2]
  norm_num
  rw [fromNumHostsGo]

/-- **C3 (amended).** The host-count expansion always splits `n` into
blocks of total size exactly `n`; and whenever the start address is
aligned to the largest emitted block (`2 ^ ilog2 n`) and the range does
not overflow the 32-bit space, the emitted CIDR blocks cover exactly the
interval `[start, start + n)`.  For unaligned starts the covered set can
spill outside the interval (see the counterexample). -/
theorem c3_from_num_hosts (start n : Nat) (h0 : 0 < n)
    (hn : n < 4294967296) :
    (((fromNumHosts start n).map fun c => 2 ^ (32 - c.plen)).sum = n) ∧
    (start % 2 ^ Nat.log2 n = 0 → start + n ≤ 4294967296 →
      ∀ a, (∃ c ∈ fromNumHosts start n, inCidr c a = true) ↔
        (start ≤ a ∧ a < start + n)) := by
  refine ⟨fromNumHostsGo_sum n start hn, ?_⟩
  intro halign hbound a
  exact fromNumHostsGo_mem n start h0 hn halign hbound a

/-- Witness for C3: 10.0.0.0 with 768 hosts (a /23 plus a /24); the
covered set is exactly the 768 addresses from 10.0.0.0. -/
theorem c3_from_num_hosts_witness :
    (((fromNumHosts 167772160 768).map fun c => 2 ^ (32 - c.plen)).sum =
      768) ∧
    ((∃ c ∈ fromNumHosts 167772160 768, inCidr c 167772600 = true) ↔
      (167772160 ≤ 167772600 ∧ 167772600 < 167772160 + 768)) := by
  have hl : Nat.log2 768 = 9 := by
    simp [Nat.log2]
  refine ⟨(c3_from_num_hosts 167772160 768 (by decide) (by decide)).1,
    (c3_from_num_hosts 167772160 768 (by decide) (by decide)).2
      (by rw [hl]; decide) (by decide) 167772600⟩

end Pabgp
